import Mathlib

/-!
Verification development for the addon filesystem core
(`crates/core/src/fs/addon.rs`).

The Rust code is shallowly embedded as follows:

* A filesystem path is a list of name segments (`FPath`).  The embedding
  works on the components view of `std::path::FPath`.
* The disk is a pure state `FS`: a list of existing directories, a list
  of files (path paired with data), and a log of the mutation calls that
  were attempted (the log is observational instrumentation; it records
  exactly the `remove_dir_all` / `create_dir_all` / `File::create` /
  `remove_file` call sites of the source).
* Fallible filesystem primitives consult an `Oracle` that says which
  calls fail with an I/O error, mirroring the fact that any `std::fs`
  call can fail; `okOracle` is the oracle under which no injected
  failure occurs.
* Functions returning `Result` in Rust return `Except FsErr _` here,
  paired with the disk state reached when the function returns.
-/

/-- A filesystem path, as its list of components. -/
abbrev FPath := List String

/-- One entry of a zip archive: its raw internal name (forward-slash
separated, attacker controlled) and its byte content. -/
structure ZipEntry where
  name : String
  content : String
deriving DecidableEq, Repr

/-- `ZipFile::is_dir` of the zip crate: the entry is a directory iff its
raw name ends with a separator. -/
def ZipEntry.isDirE (e : ZipEntry) : Bool :=
  match e.name.data.getLast? with
  | some c => c = '/' || c = '\\'
  | none => false

/-- File contents: either a zip archive (so that `zip::ZipArchive::new`
succeeds on it) or plain bytes (on which it fails). -/
inductive FileData where
  | zipArchive (entries : List ZipEntry) : FileData
  | bytes (content : String) : FileData
deriving DecidableEq, Repr

/-- A recorded filesystem mutation call (observational log). -/
inductive FsCall where
  | rmTree (p : FPath) : FsCall
  | rmFile (p : FPath) : FsCall
  | mkdir (p : FPath) : FsCall
  | write (p : FPath) : FsCall
deriving DecidableEq, Repr

/-- The path an `FsCall` was invoked on. -/
def FsCall.path : FsCall → FPath
  | .rmTree p => p
  | .rmFile p => p
  | .mkdir p => p
  | .write p => p

/-- The disk state. -/
structure FS where
  dirs : List FPath
  files : List (FPath × FileData)
  log : List FsCall
deriving DecidableEq, Repr

/-- Errors: archive-open failure, a file that was not found, or an
injected I/O failure of the named operation at the given path. -/
inductive FsErr where
  | archiveOpen : FsErr
  | notFound (p : FPath) : FsErr
  | ioFail (op : String) (p : FPath) : FsErr
deriving DecidableEq, Repr

/-- Failure oracle: which filesystem calls fail with an I/O error. -/
structure Oracle where
  rmDirFail : FPath → Bool
  rmFileFail : FPath → Bool
  mkDirFail : FPath → Bool
  writeFail : FPath → Bool

/-- The oracle under which no call fails. -/
def okOracle : Oracle :=
  ⟨fun _ => false, fun _ => false, fun _ => false, fun _ => false⟩

/-- `FPath::exists`: the path names an existing directory or file. -/
def FS.existsP (fs : FS) (p : FPath) : Bool :=
  fs.dirs.contains p || fs.files.any (fun pc => pc.1 == p)

/-- Append one entry to the call log. -/
def FS.addLog (fs : FS) (c : FsCall) : FS :=
  { fs with log := fs.log ++ [c] }

/-- Effect of a successful `remove_dir_all p`: everything at or below
`p` disappears. -/
def FS.removeTree (fs : FS) (p : FPath) : FS :=
  let dirs' := fs.dirs.filter (fun d => !(p.isPrefixOf d))
  let files' := fs.files.filter (fun pc => !(p.isPrefixOf pc.1))
  { dirs := dirs', files := files', log := fs.log ++ [.rmTree p] }

/-- All nonempty initial portions of a path, shortest first. -/
def pathPre (p : FPath) : List FPath :=
  (List.range p.length).map (fun n => p.take (n + 1))

/-- Effect of a successful `create_dir_all p`: `p` and all its ancestors
exist afterwards. -/
def FS.mkDirAll (fs : FS) (p : FPath) : FS :=
  { fs with dirs := pathPre p ++ fs.dirs, log := fs.log ++ [.mkdir p] }

/-- Effect of a successful `File::create`/`io::copy` pair at `p`:
the file at `p` now holds `c`, replacing any previous content. -/
def FS.writeFile (fs : FS) (p : FPath) (c : String) : FS :=
  let files' := (p, FileData.bytes c) :: fs.files.filter (fun pc => pc.1 != p)
  { fs with files := files', log := fs.log ++ [.write p] }

/-- Re-create a file (used to model the caller re-supplying the archive
before a second install). -/
def FS.addFile (fs : FS) (p : FPath) (d : FileData) : FS :=
  { fs with files := (p, d) :: fs.files.filter (fun pc => pc.1 != p) }

/-- `std::fs::remove_dir_all`, guarded by the failure oracle. -/
def removeTreeOp (o : Oracle) (p : FPath) (fs : FS) : Except FsErr Unit × FS :=
  if o.rmDirFail p then (.error (.ioFail "remove_dir_all" p), fs.addLog (.rmTree p))
  else (.ok (), fs.removeTree p)

/-- `std::fs::remove_file`: fails on the oracle or when the file is
absent. -/
def removeFileOp (o : Oracle) (p : FPath) (fs : FS) : Except FsErr Unit × FS :=
  if o.rmFileFail p then (.error (.ioFail "remove_file" p), fs.addLog (.rmFile p))
  else if fs.files.any (fun pc => pc.1 == p) then
    let files' := fs.files.filter (fun pc => pc.1 != p)
    (.ok (), { fs with files := files', log := fs.log ++ [.rmFile p] })
  else (.error (.notFound p), fs.addLog (.rmFile p))

/-- `std::fs::create_dir_all`, guarded by the failure oracle. -/
def mkDirAllOp (o : Oracle) (p : FPath) (fs : FS) : Except FsErr Unit × FS :=
  if o.mkDirFail p then (.error (.ioFail "create_dir_all" p), fs.addLog (.mkdir p))
  else (.ok (), fs.mkDirAll p)

/-- `File::create` plus `io::copy`, guarded by the failure oracle. -/
def writeFileOp (o : Oracle) (p : FPath) (c : String) (fs : FS) : Except FsErr Unit × FS :=
  if o.writeFail p then (.error (.ioFail "write" p), fs.addLog (.write p))
  else (.ok (), fs.writeFile p c)

/-- `AddonFolder` (modelled from the spec: the struct lives in
`crates/core/src/addon.rs`, which is not part of the given sources):
one physical top-level directory of an addon, with the stable identity
`id` and the absolute `path`. -/
structure AddonFolder where
  id : String
  path : FPath
deriving DecidableEq, Repr

/-- `Addon` (modelled from the spec: the struct lives in
`crates/core/src/addon.rs`): the core reads only `primary_folder_id`
and `folders`. -/
structure Addon where
  primaryFolderId : String
  folders : List AddonFolder
deriving DecidableEq, Repr

/-- `delete_addons`: for each folder whose path exists, recursively
delete it; the `?` on `remove_dir_all` propagates the first failure. -/
def delete_addons (o : Oracle) (addonFolders : List AddonFolder) (fs : FS) :
    Except FsErr Unit × FS :=
  match addonFolders with
  | [] => (.ok (), fs)
  | f :: rest =>
    if fs.existsP f.path then
      match removeTreeOp o f.path fs with
      | (.error e, fs') => (.error e, fs')
      | (.ok _, fs') => delete_addons o rest fs'
    else delete_addons o rest fs

/-- Fuelled worker for `trimEndChars`; each successful strip removes at
least one character, so `s.length` fuel is always enough. -/
def trimEndAux (pat : List Char) : Nat → List Char → List Char
  | 0, s => s
  | fuel + 1, s =>
    if pat ≠ [] ∧ pat <:+ s then
      trimEndAux pat fuel (s.take (s.length - pat.length))
    else s

/-- Rust `str::trim_end_matches`: repeatedly removes the suffix `pat`
from the end of `s` as long as it matches. -/
def trimEndChars (pat : List Char) (s : List Char) : List Char :=
  trimEndAux pat s.length s

/-- The candidate identity derived from a saved-variables file name:
`.trim_end_matches(".bak").trim_end_matches(".lua")`. -/
def svCandidate (name : String) : String :=
  ⟨trimEndChars ".lua".data (trimEndChars ".bak".data name.data)⟩

/-- The inner loop of `delete_saved_variables`: for every folder whose
id equals the candidate name, `remove_file(path)?`. -/
def svInner (o : Oracle) (p : FPath) (fileNameStr : String)
    (addonFolders : List AddonFolder) (fs : FS) : Except FsErr Unit × FS :=
  match addonFolders with
  | [] => (.ok (), fs)
  | f :: rest =>
    if svCandidate fileNameStr = f.id then
      match removeFileOp o p fs with
      | (.error e, fs') => (.error e, fs')
      | (.ok _, fs') => svInner o p fileNameStr rest fs'
    else svInner o p fileNameStr rest fs

/-- The walk body of `delete_saved_variables` over the list of walked
paths: entries whose parent directory is named `SavedVariables` have
their file name stripped of `.bak` then `.lua` suffixes and are removed
when the result equals a known folder id. -/
def svWalk (o : Oracle) (addonFolders : List AddonFolder) (paths : List FPath)
    (fs : FS) : Except FsErr Unit × FS :=
  match paths with
  | [] => (.ok (), fs)
  | p :: rest =>
    let parentName := p.dropLast.getLast?
    if parentName = some "SavedVariables" then
      match p.getLast? with
      | some nm =>
        match svInner o p nm addonFolders fs with
        | (.error e, fs') => (.error e, fs')
        | (.ok _, fs') => svWalk o addonFolders rest fs'
      | none => svWalk o addonFolders rest fs
    else svWalk o addonFolders rest fs

/-- The list of paths yielded by `WalkDir::new(wtf_path)`: every
directory and file at or below `wtf_path` (walk errors are out of the
model; the source skips them with `filter_map(Result::ok)`). -/
def walkList (wtfPath : FPath) (fs : FS) : List FPath :=
  fs.dirs.filter (fun d => wtfPath.isPrefixOf d) ++
    (fs.files.map Prod.fst).filter (fun p => wtfPath.isPrefixOf p)

/-- `delete_saved_variables`: walk everything under `wtf_path` and
delete the saved-variable files of the given folders. -/
def delete_saved_variables (o : Oracle) (addonFolders : List AddonFolder)
    (wtfPath : FPath) (fs : FS) : Except FsErr Unit × FS :=
  svWalk o addonFolders (walkList wtfPath fs) fs

/-- Split a character list at `/` separators, like `str::split('/')`
(which always yields at least one piece) and like the raw segment view
underlying `Path::components`. -/
def splitSeg : List Char → List (List Char)
  | [] => [[]]
  | c :: rest =>
    if c = '/' then [] :: splitSeg rest
    else
      match splitSeg rest with
      | s :: ss => (c :: s) :: ss
      | [] => [[c]]

/-- First raw path segment of an entry name:
`name.split('/').next().unwrap()` (`split` always yields a piece). -/
def headSeg (name : String) : String :=
  match splitSeg name.data with
  | s :: _ => ⟨s⟩
  | [] => ""

/-- zip 0.5 `file_name_sanitized` (what the deprecated
`ZipFile::sanitized_name` calls): truncate at the first NUL byte,
replace the non-native separator `\` by `/`, then keep only the normal
components — empty pieces, `.` and `..` are dropped, so the result is a
relative path of plain name segments. -/
def sanitizeName (name : String) : List String :=
  let noNul := name.data.takeWhile (fun c => c ≠ '\x00')
  let repl := noNul.map (fun c => if c = '\\' then '/' else c)
  ((splitSeg repl).filter
    (fun s => s ≠ [] ∧ s ≠ ['.'] ∧ s ≠ ['.', '.'])).map
    (fun s => (⟨s⟩ : String))

/-- Destination of an archive entry:
`to_directory.join(file.sanitized_name())`. -/
def destPath (toDir : FPath) (name : String) : FPath :=
  toDir ++ sanitizeName name

/-- Rust `Path::extension` on one file-name segment: the portion after
the last `.`, none when there is no `.` or the only `.` is leading. -/
def segExt (s : String) : Option String :=
  let cs := s.data
  let suf := (cs.reverse.takeWhile (fun c => c ≠ '.')).reverse
  if suf.length = cs.length then none
  else if cs.length = suf.length + 1 then none
  else some ⟨suf⟩

/-- `Path::extension`: the extension of the final component. -/
def pathExt (p : FPath) : Option String :=
  match p.getLast? with
  | some s => segExt s
  | none => none

/-- `to_directory.join(&folder)` for one raw top-level segment string:
joining the empty segment yields a path that resolves to the directory
itself (Rust produces `to/`, the same location).  Dot segments are kept
literal here; no claim depends on OS-level `.`/`..` resolution at this
call site. -/
def joinOne (toDir : FPath) (s : String) : FPath :=
  if s = "" then toDir else toDir ++ [s]

/-- Look a path up among the files. -/
def lookupFile (fs : FS) (p : FPath) : Option FileData :=
  (fs.files.find? (fun pc => pc.1 == p)).map (fun pc => pc.2)

/-- `File::open` followed by `zip::ZipArchive::new`: yields the entry
list when the path holds a readable archive, and fails (with `?`) when
the file is missing or is not a valid archive container. -/
def openArchive (fs : FS) (p : FPath) : Option (List ZipEntry) :=
  match lookupFile fs p with
  | some (.zipArchive es) => some es
  | _ => none

/-- The distinct first segments of all archive entry names
(`archive.file_names().filter_map(|name| name.split('/').next())`
collected into a `HashSet`).  A `HashSet` iterates in unspecified
order; the deletions this set drives act on disjoint (or mutually
subsumed) subtrees, so the order fixed here does not change the
resulting state. -/
def topSegsOf (entries : List ZipEntry) : List String :=
  (entries.map (fun e => headSeg e.name)).dedup

/-- Step 3 of `install_addon`: best-effort removal of every existing
top-level directory named by an archive entry's first segment.  The
source discards the `Result` (`let _ = std::fs::remove_dir_all(path);`),
so a failure is swallowed and the loop continues. -/
def deleteTopLevel (o : Oracle) (toDir : FPath) (segs : List String)
    (fs : FS) : FS :=
  match segs with
  | [] => fs
  | s :: rest =>
    let p := joinOne toDir s
    if fs.existsP p then
      if o.rmDirFail p then deleteTopLevel o toDir rest (fs.addLog (.rmTree p))
      else deleteTopLevel o toDir rest (fs.removeTree p)
    else deleteTopLevel o toDir rest fs

/-- The manifest-candidate collection of the extraction loop: push the
destination iff it has an extension equal to `toc` and, stripped of the
`to_directory` front, consists of exactly two components. -/
def tocCollect (toDir : FPath) (path : FPath) (tocFiles : List FPath) :
    List FPath :=
  match pathExt path with
  | some ext =>
    if toDir.isPrefixOf path then
      if ext = "toc" ∧ (path.drop toDir.length).length = 2 then
        tocFiles ++ [path]
      else tocFiles
    else tocFiles
  | none => tocFiles

/-- Extraction of a single entry: directories are created with
`create_dir_all`; for files, the parent directory is created first when
absent, then the contents are written. -/
def extractEntry (o : Oracle) (toDir : FPath) (e : ZipEntry) (fs : FS) :
    Except FsErr Unit × FS :=
  let path := destPath toDir e.name
  if e.isDirE then mkDirAllOp o path fs
  else
    let parentStep : Except FsErr Unit × FS :=
      if path = [] then (.ok (), fs)
      else
        let par := path.dropLast
        if fs.existsP par then (.ok (), fs) else mkDirAllOp o par fs
    match parentStep with
    | (.error er, fs') => (.error er, fs')
    | (.ok _, fs') => writeFileOp o path e.content fs'

/-- The extraction loop of `install_addon` (step 4): per entry, collect
the manifest candidate first, then create/write; `?` aborts at the
first failure. -/
def extractLoop (o : Oracle) (toDir : FPath) (entries : List ZipEntry)
    (fs : FS) (tocFiles : List FPath) :
    Except FsErr Unit × FS × List FPath :=
  match entries with
  | [] => (.ok (), fs, tocFiles)
  | e :: rest =>
    let path := destPath toDir e.name
    let tocFiles' := tocCollect toDir path tocFiles
    match extractEntry o toDir e fs with
    | (.error er, fs') => (.error er, fs', tocFiles')
    | (.ok _, fs') => extractLoop o toDir rest fs' tocFiles'

/-- Strict lexicographic order on character lists (the order of Rust
string comparison), written so that the kernel can evaluate it. -/
def charListLt : List Char → List Char → Bool
  | [], [] => false
  | [], _ :: _ => true
  | _ :: _, [] => false
  | a :: as, b :: bs => if a < b then true else if a = b then charListLt as bs else false

/-- Strict lexicographic order on strings. -/
def strLt (a b : String) : Bool := charListLt a.data b.data

/-- Boolean total order on paths (lexicographic on segments). -/
def pathLe : FPath → FPath → Bool
  | [], _ => true
  | _ :: _, [] => false
  | a :: as, b :: bs => if strLt a b then true else if a = b then pathLe as bs else false

/-- Modelled from the spec: the `Ord` of `AddonFolder`
(`crates/core/src/addon.rs`, not among the given sources) — "two
AddonFolder values compare/sort by `id` (and secondarily by path)". -/
def afLe (a b : AddonFolder) : Bool :=
  if strLt a.id b.id then true else if a.id = b.id then pathLe a.path b.path else false

/-- `afLe` as a relation, for `List.insertionSort`. -/
def afLeP (a b : AddonFolder) : Prop := afLe a b = true

instance : DecidableRel afLeP := fun a b =>
  inferInstanceAs (Decidable (afLe a b = true))

/-- Rust `Vec::dedup`: remove consecutive equal elements. -/
def dedupAdj {α : Type} [DecidableEq α] : List α → List α
  | [] => []
  | [a] => [a]
  | a :: b :: rest =>
    if a = b then dedupAdj (b :: rest) else a :: dedupAdj (b :: rest)

/-- `install_addon`: open the archive, delete the addon's previous
folders, best-effort-clear the new top-level folders, extract all
entries while collecting manifest candidates, delete the archive file,
and return the parsed folder list sorted and deduplicated.
`parse_toc_path` lives in `crates/core/src/parse.rs` (not among the
given sources) and is taken as a parameter, per the spec's external
manifest-parsing contract. -/
def install_addon (o : Oracle) (parseTocPath : FPath → Option AddonFolder)
    (addon : Addon) (fromDirectory toDirectory : FPath) (fs : FS) :
    Except FsErr (List AddonFolder) × FS :=
  let zipPath := fromDirectory ++ [addon.primaryFolderId]
  match openArchive fs zipPath with
  | none => (.error .archiveOpen, fs)
  | some entries =>
    match delete_addons o addon.folders fs with
    | (.error e, fs1) => (.error e, fs1)
    | (.ok _, fs1) =>
      let newTopLevelFolders := topSegsOf entries
      let fs2 := deleteTopLevel o toDirectory newTopLevelFolders fs1
      match extractLoop o toDirectory entries fs2 [] with
      | (.error e, fs3, _) => (.error e, fs3)
      | (.ok _, fs3, tocFiles) =>
        match removeFileOp o zipPath fs3 with
        | (.error e, fs4) => (.error e, fs4)
        | (.ok _, fs4) =>
          let addonFolders := tocFiles.filterMap parseTocPath
          let sorted := List.insertionSort afLeP addonFolders
          (.ok (dedupAdj sorted), fs4)

/-! ## Properties of suffix trimming -/

lemma trimEndAux_congr (pat : List Char) :
    ∀ f₁ f₂ s : _, s.length ≤ f₁ → s.length ≤ f₂ →
      trimEndAux pat f₁ s = trimEndAux pat f₂ s := by
  intro f₁
  induction f₁ with
  | zero =>
    intro f₂ s h₁ h₂
    have hs : s = [] := List.eq_nil_of_length_eq_zero (Nat.le_zero.mp h₁)
    subst hs
    cases f₂ with
    | zero => rfl
    | succ f =>
      simp only [trimEndAux]
      rw [if_neg]
      rintro ⟨hne, hsuf⟩
      exact hne (List.suffix_nil.mp hsuf)
  | succ f₁ ih =>
    intro f₂ s h₁ h₂
    cases f₂ with
    | zero =>
      have hs : s = [] := List.eq_nil_of_length_eq_zero (Nat.le_zero.mp h₂)
      subst hs
      simp only [trimEndAux]
      rw [if_neg]
      rintro ⟨hne, hsuf⟩
      exact hne (List.suffix_nil.mp hsuf)
    | succ f₂' =>
      simp only [trimEndAux]
      by_cases hc : pat ≠ [] ∧ pat <:+ s
      · rw [if_pos hc, if_pos hc]
        have hplen : 0 < pat.length := List.length_pos.mpr hc.1
        have hsle : pat.length ≤ s.length := hc.2.length_le
        have hlen : (s.take (s.length - pat.length)).length = s.length - pat.length := by
          simp only [List.length_take]
          omega
        apply ih
        · rw [hlen]; omega
        · rw [hlen]; omega
      · rw [if_neg hc, if_neg hc]

lemma trimEndChars_of_not_suffix (pat s : List Char) (h : ¬ pat <:+ s) :
    trimEndChars pat s = s := by
  unfold trimEndChars
  cases s with
  | nil => rfl
  | cons a t =>
    simp only [List.length_cons, trimEndAux]
    rw [if_neg]
    rintro ⟨_, hsuf⟩
    exact h hsuf

lemma trimEndChars_append (pat s : List Char) (hp : pat ≠ []) :
    trimEndChars pat (s ++ pat) = trimEndChars pat s := by
  obtain ⟨a, pat', rfl⟩ := List.exists_cons_of_ne_nil hp
  show trimEndAux _ (s ++ a :: pat').length _ = _
  have hlen : (s ++ a :: pat').length = (s.length + pat'.length) + 1 := by
    rw [List.length_append, List.length_cons, Nat.add_succ]
  rw [hlen]
  simp only [trimEndAux]
  rw [if_pos ⟨List.cons_ne_nil a pat', List.suffix_append s (a :: pat')⟩]
  have htake : (s ++ a :: pat').take ((s ++ a :: pat').length - (a :: pat').length) = s := by
    rw [hlen, List.length_cons]
    have : s.length + pat'.length + 1 - (pat'.length + 1) = s.length := by omega
    rw [this]
    exact List.take_left s (a :: pat')
  rw [htake]
  exact trimEndAux_congr _ _ _ _ (by omega) (le_refl _)

/-- Suffixes of equal length are equal, so a pattern of the same length
as `pat` but different from it is never a suffix of `s ++ pat`. -/
lemma not_suffix_append_of_ne (pat₁ pat₂ s : List Char)
    (hne : pat₁ ≠ pat₂) (hlen : pat₁.length = pat₂.length) :
    ¬ pat₁ <:+ (s ++ pat₂) := by
  rintro ⟨t, ht⟩
  have hl : t.length + pat₁.length = s.length + pat₂.length := by
    have := congrArg List.length ht
    simpa [List.length_append] using this
  have : t = s ∧ pat₁ = pat₂ :=
    List.append_inj ht (by omega)
  exact hne this.2

/-- Concatenate `n` copies of a suffix. -/
def repChars (s : List Char) : Nat → List Char
  | 0 => []
  | n + 1 => repChars s n ++ s

lemma trimEndChars_rep (pat x : List Char) (hp : pat ≠ []) (hx : ¬ pat <:+ x) :
    ∀ n, trimEndChars pat (x ++ repChars pat n) = x := by
  intro n
  induction n with
  | zero => simpa [repChars] using trimEndChars_of_not_suffix pat x hx
  | succ n ih =>
    have : x ++ repChars pat (n + 1) = (x ++ repChars pat n) ++ pat := by
      simp [repChars, List.append_assoc]
    rw [this, trimEndChars_append pat _ hp, ih]

/-! ## The Saved-State Reconciler: candidate derivation and deletion -/

/-- A one-file saved-variables tree: `WTF/SavedVariables/<nm>`. -/
def svFS1 (nm : String) : FS :=
  ⟨[["WTF"], ["WTF", "SavedVariables"]],
    [(["WTF", "SavedVariables", nm], .bytes "d")], []⟩

lemma svWalk_one (id nm : String) (fp : FPath) (h : svCandidate nm = id) :
    (delete_saved_variables okOracle [⟨id, fp⟩] ["WTF"] (svFS1 nm)).2.files = []
    ∧ (delete_saved_variables okOracle [⟨id, fp⟩] ["WTF"] (svFS1 nm)).1 = .ok () := by
  have hwalk : walkList ["WTF"] (svFS1 nm) =
      [["WTF"], ["WTF", "SavedVariables"], ["WTF", "SavedVariables", nm]] := by
    simp [walkList, svFS1, List.isPrefixOf]
  unfold delete_saved_variables
  rw [hwalk]
  simp only [svWalk, svInner, List.dropLast, List.getLast?]
  norm_num
  simp only [h, if_pos rfl, removeFileOp, okOracle, svFS1]
  simp [svWalk]

lemma bak_ne_nil : ".bak".data ≠ [] := by decide

lemma lua_ne_nil : ".lua".data ≠ [] := by decide

lemma mk_data_eq (s : String) : String.mk s.data = s := rfl

/-- C1, corrected.  The claim's first half is right: a name of the form
`<id>.lua.bak` strips `.bak` first, then `.lua`, and derives `<id>`.
Its second half is false on the code: `trim_end_matches(".bak")` strips
`.bak` unconditionally, so a name `<id>.bak` (without the state
extension) also derives the candidate `<id>` and the file IS deleted.
The real asymmetry is in the trimming order: `<id>.bak.lua` derives
`<id>.bak`, which does not match.  (`id` must not itself end in either
suffix.) -/
theorem C1_amended (id : String)
    (hb : ¬ (".bak".data <:+ id.data)) (hl : ¬ (".lua".data <:+ id.data)) :
    svCandidate (id ++ ".lua.bak") = id ∧
    svCandidate (id ++ ".bak") = id ∧
    (delete_saved_variables okOracle [⟨id, []⟩] ["WTF"]
      (svFS1 (id ++ ".bak"))).2.files = [] ∧
    svCandidate (id ++ ".bak.lua") = id ++ ".bak" := by
  have hdata1 : (id ++ ".lua.bak").data = (id.data ++ ".lua".data) ++ ".bak".data := by
    simp [String.data_append]
  have h1 : svCandidate (id ++ ".lua.bak") = id := by
    unfold svCandidate
    rw [hdata1, trimEndChars_append _ _ bak_ne_nil]
    rw [trimEndChars_of_not_suffix _ _
      (not_suffix_append_of_ne ".bak".data ".lua".data id.data (by decide) (by decide))]
    rw [trimEndChars_append _ _ lua_ne_nil, trimEndChars_of_not_suffix _ _ hl]
  have hdata2 : (id ++ ".bak").data = id.data ++ ".bak".data := by
    simp [String.data_append]
  have h2 : svCandidate (id ++ ".bak") = id := by
    unfold svCandidate
    rw [hdata2, trimEndChars_append _ _ bak_ne_nil,
      trimEndChars_of_not_suffix _ _ hb, trimEndChars_of_not_suffix _ _ hl]
  refine ⟨h1, h2, (svWalk_one id _ [] h2).1, ?_⟩
  have hdata3 : (id ++ ".bak.lua").data = (id.data ++ ".bak".data) ++ ".lua".data := by
    simp [String.data_append]
  unfold svCandidate
  rw [hdata3]
  rw [trimEndChars_of_not_suffix ".bak".data _
    (not_suffix_append_of_ne ".bak".data ".lua".data _ (by decide) (by decide))]
  rw [trimEndChars_append _ _ lua_ne_nil]
  rw [trimEndChars_of_not_suffix ".lua".data _
    (not_suffix_append_of_ne ".lua".data ".bak".data _ (by decide) (by decide))]
  rw [← hdata2]

/-- C1, counterexample to the claim as stated: the file
`WTF/SavedVariables/AddonA.bak` — ending in `.bak` but not in the state
extension — derives candidate `AddonA`, which equals the known folder
id, and the Saved-State Reconciler deletes it. -/
theorem C1_counterexample :
    svCandidate "AddonA.bak" = "AddonA" ∧
    (delete_saved_variables okOracle [⟨"AddonA", ["Interface", "AddOns", "AddonA"]⟩]
      ["WTF"] (svFS1 "AddonA.bak")).2.files = [] := by
  decide

/-- C1 witness. -/
theorem C1_witness :
    svCandidate ("AddonA" ++ ".lua.bak") = "AddonA" ∧
    svCandidate ("AddonA" ++ ".bak") = "AddonA" ∧
    (delete_saved_variables okOracle [⟨"AddonA", []⟩] ["WTF"]
      (svFS1 ("AddonA" ++ ".bak"))).2.files = [] ∧
    svCandidate ("AddonA" ++ ".bak.lua") = "AddonA" ++ ".bak" :=
  C1_amended "AddonA" (by decide) (by decide)

lemma not_bak_suffix_lua_rep (id : String) (hb : ¬ (".bak".data <:+ id.data)) :
    ∀ m, ¬ (".bak".data <:+ id.data ++ repChars ".lua".data m) := by
  intro m
  cases m with
  | zero => simpa [repChars] using hb
  | succ n =>
    have : id.data ++ repChars ".lua".data (n + 1) =
        (id.data ++ repChars ".lua".data n) ++ ".lua".data := by
      simp [repChars, List.append_assoc]
    rw [this]
    exact not_suffix_append_of_ne ".bak".data ".lua".data _ (by decide) (by decide)

/-- C10: suffix stripping is repeated, not single-shot.  For any id not
itself ending in `.bak`/`.lua`, a file named with stacked suffixes
`<id>(.bak)^m` or `<id>(.lua)^m` derives the candidate `<id>`, and the
Saved-State Reconciler deletes such a file when `<id>` is a known
folder id. -/
theorem C10_repeated_strip (id : String) (m : Nat)
    (hb : ¬ (".bak".data <:+ id.data)) (hl : ¬ (".lua".data <:+ id.data)) :
    svCandidate ⟨id.data ++ repChars ".bak".data m⟩ = id ∧
    svCandidate ⟨id.data ++ repChars ".lua".data m⟩ = id ∧
    (delete_saved_variables okOracle [⟨id, []⟩] ["WTF"]
      (svFS1 ⟨id.data ++ repChars ".bak".data m⟩)).2.files = [] ∧
    (delete_saved_variables okOracle [⟨id, []⟩] ["WTF"]
      (svFS1 ⟨id.data ++ repChars ".lua".data m⟩)).2.files = [] := by
  have h1 : svCandidate ⟨id.data ++ repChars ".bak".data m⟩ = id := by
    unfold svCandidate
    show String.mk (trimEndChars _ (trimEndChars _ (id.data ++ repChars ".bak".data m))) = id
    rw [trimEndChars_rep _ _ bak_ne_nil hb, trimEndChars_of_not_suffix _ _ hl]
  have h2 : svCandidate ⟨id.data ++ repChars ".lua".data m⟩ = id := by
    unfold svCandidate
    show String.mk (trimEndChars _ (trimEndChars _ (id.data ++ repChars ".lua".data m))) = id
    rw [trimEndChars_of_not_suffix _ _ (not_bak_suffix_lua_rep id hb m),
      trimEndChars_rep _ _ lua_ne_nil hl]
  exact ⟨h1, h2, (svWalk_one id _ [] h1).1, (svWalk_one id _ [] h2).1⟩

/-- C10 witness. -/
theorem C10_witness :
    svCandidate ⟨"AddonA".data ++ repChars ".bak".data 2⟩ = "AddonA" ∧
    svCandidate ⟨"AddonA".data ++ repChars ".lua".data 2⟩ = "AddonA" ∧
    (delete_saved_variables okOracle [⟨"AddonA", []⟩] ["WTF"]
      (svFS1 ⟨"AddonA".data ++ repChars ".bak".data 2⟩)).2.files = [] ∧
    (delete_saved_variables okOracle [⟨"AddonA", []⟩] ["WTF"]
      (svFS1 ⟨"AddonA".data ++ repChars ".lua".data 2⟩)).2.files = [] :=
  C10_repeated_strip "AddonA" 2 (by decide) (by decide)

instance exceptDecEq {e a : Type} [DecidableEq e] [DecidableEq a] :
    DecidableEq (Except e a)
  | .error x, .error y =>
    if h : x = y then isTrue (by rw [h]) else isFalse (by simp [h])
  | .error _, .ok _ => isFalse (by simp)
  | .ok _, .error _ => isFalse (by simp)
  | .ok x, .ok y =>
    if h : x = y then isTrue (by rw [h]) else isFalse (by simp [h])

/-! ## The Folder Remover -/

/-- C7: `delete_addons` iterates the folders in order; an absent path
is skipped as a no-op; the first `remove_dir_all` failure aborts the
loop with that error while leaving the directories and files untouched
(so every folder after the failing one is untouched); an existing
folder is recursively deleted and the loop continues; the empty list
performs no filesystem action and succeeds. -/
theorem C7_delete_addons :
    (∀ (o : Oracle) (fs : FS), delete_addons o [] fs = (.ok (), fs)) ∧
    (∀ (o : Oracle) (f : AddonFolder) (rest : List AddonFolder) (fs : FS),
      fs.existsP f.path = false →
      delete_addons o (f :: rest) fs = delete_addons o rest fs) ∧
    (∀ (o : Oracle) (f : AddonFolder) (rest : List AddonFolder) (fs : FS),
      fs.existsP f.path = true → o.rmDirFail f.path = true →
      (delete_addons o (f :: rest) fs).1 =
        .error (.ioFail "remove_dir_all" f.path) ∧
      (delete_addons o (f :: rest) fs).2.dirs = fs.dirs ∧
      (delete_addons o (f :: rest) fs).2.files = fs.files) ∧
    (∀ (o : Oracle) (f : AddonFolder) (rest : List AddonFolder) (fs : FS),
      fs.existsP f.path = true → o.rmDirFail f.path = false →
      delete_addons o (f :: rest) fs =
        delete_addons o rest (fs.removeTree f.path)) := by
  refine ⟨fun o fs => rfl, fun o f rest fs h => ?_, fun o f rest fs h hf => ?_,
    fun o f rest fs h hf => ?_⟩
  · simp [delete_addons, h]
  · simp [delete_addons, h, removeTreeOp, hf, FS.addLog]
  · simp [delete_addons, h, removeTreeOp, hf]

/-- An oracle that fails `remove_dir_all` exactly at the path `x`. -/
def oracleX : Oracle :=
  ⟨fun p => p == ["x"], fun _ => false, fun _ => false, fun _ => false⟩

/-- A two-directory disk used by witnesses. -/
def fsXY : FS := ⟨[["x"], ["y"]], [], []⟩

/-- C7 witness. -/
theorem C7_witness :
    delete_addons okOracle [] fsXY = (.ok (), fsXY) ∧
    delete_addons okOracle [⟨"A", ["gone"]⟩] fsXY = delete_addons okOracle [] fsXY ∧
    ((delete_addons oracleX [⟨"A", ["x"]⟩, ⟨"B", ["y"]⟩] fsXY).1 =
        .error (.ioFail "remove_dir_all" ["x"]) ∧
      (delete_addons oracleX [⟨"A", ["x"]⟩, ⟨"B", ["y"]⟩] fsXY).2.dirs = fsXY.dirs ∧
      (delete_addons oracleX [⟨"A", ["x"]⟩, ⟨"B", ["y"]⟩] fsXY).2.files = fsXY.files) ∧
    delete_addons okOracle [⟨"B", ["y"]⟩] fsXY =
      delete_addons okOracle [] (fsXY.removeTree ["y"]) :=
  ⟨C7_delete_addons.1 okOracle fsXY,
    C7_delete_addons.2.1 okOracle ⟨"A", ["gone"]⟩ [] fsXY (by decide),
    C7_delete_addons.2.2.1 oracleX ⟨"A", ["x"]⟩ [⟨"B", ["y"]⟩] fsXY (by decide) (by decide),
    C7_delete_addons.2.2.2 okOracle ⟨"B", ["y"]⟩ [] fsXY (by decide) (by decide)⟩

/-! ## Archive-open failure -/

/-- C3: when the archive cannot be opened (missing file or not a valid
archive container), `install_addon` returns the error with the disk
completely unchanged — the open check precedes every deletion and
write. -/
theorem C3_open_failure (o : Oracle) (parse : FPath → Option AddonFolder)
    (addon : Addon) (fromDirectory toDirectory : FPath) (fs : FS)
    (h : openArchive fs (fromDirectory ++ [addon.primaryFolderId]) = none) :
    install_addon o parse addon fromDirectory toDirectory fs =
      (.error .archiveOpen, fs) := by
  unfold install_addon
  simp [h]

/-- A disk whose `from/pkg.zip` is not a valid archive. -/
def fsBadZip : FS :=
  ⟨[[], ["addons"], ["addons", "Other"], ["from"]],
    [(["from", "pkg.zip"], .bytes "junk")], []⟩

/-- C3 witness. -/
theorem C3_witness :
    install_addon okOracle (fun _ => none) ⟨"pkg.zip", [⟨"Other", ["addons", "Other"]⟩]⟩
      ["from"] ["addons"] fsBadZip = (.error .archiveOpen, fsBadZip) :=
  C3_open_failure okOracle (fun _ => none) ⟨"pkg.zip", [⟨"Other", ["addons", "Other"]⟩]⟩
    ["from"] ["addons"] fsBadZip (by decide)

/-! ## The empty top-level segment -/

/-- The disk for the C9 scenario. -/
def fsNine : FS :=
  ⟨[[], ["addons"], ["addons", "Other"], ["addons", "Other", "sub"], ["from"]],
    [(["from", "pkg.zip"], .zipArchive [⟨"/evil/payload.txt", "p"⟩]),
      (["addons", "Other", "f.lua"], .bytes "x")], []⟩

/-- C9: an entry name beginning with `/` puts the empty string into the
set of distinct top-level segments, so the pre-extraction cleanup joins
the empty segment to `to_directory` — the installation root itself —
and recursively deletes it, wiping directories (here `addons/Other`)
that no archive entry names. -/
theorem C9_empty_topseg :
    topSegsOf [⟨"/evil/payload.txt", "p"⟩] = [""] ∧
    joinOne ["addons"] "" = ["addons"] ∧
    FsCall.rmTree ["addons"] ∈
      (install_addon okOracle (fun _ => none) ⟨"pkg.zip", []⟩
        ["from"] ["addons"] fsNine).2.log ∧
    ["addons", "Other"] ∉
      (install_addon okOracle (fun _ => none) ⟨"pkg.zip", []⟩
        ["from"] ["addons"] fsNine).2.dirs ∧
    (["addons", "Other", "f.lua"], FileData.bytes "x") ∉
      (install_addon okOracle (fun _ => none) ⟨"pkg.zip", []⟩
        ["from"] ["addons"] fsNine).2.files ∧
    (install_addon okOracle (fun _ => none) ⟨"pkg.zip", []⟩
      ["from"] ["addons"] fsNine).1 = .ok [] := by
  decide

/-! ## Manifest-candidate classification -/

/-- The manifest candidates determined by the entry names alone. -/
def tocsPure (toDir : FPath) (entries : List ZipEntry) : List FPath :=
  match entries with
  | [] => []
  | e :: rest =>
    tocCollect toDir (destPath toDir e.name) [] ++ tocsPure toDir rest

lemma tocCollect_acc (toDir path : FPath) (acc : List FPath) :
    tocCollect toDir path acc = acc ++ tocCollect toDir path [] := by
  unfold tocCollect
  split
  · split
    · split
      · rfl
      · simp
    · simp
  · simp

lemma extractLoop_tocs (o : Oracle) (toDir : FPath) :
    ∀ (entries : List ZipEntry) (fs : FS) (acc : List FPath),
      (extractLoop o toDir entries fs acc).1 = .ok () →
      (extractLoop o toDir entries fs acc).2.2 = acc ++ tocsPure toDir entries := by
  intro entries
  induction entries with
  | nil => intro fs acc _; simp [extractLoop, tocsPure]
  | cons e rest ih =>
    intro fs acc hok
    rw [extractLoop] at hok ⊢
    cases hee : extractEntry o toDir e fs with
    | mk r fs' =>
      cases r with
      | error er => simp [hee] at hok
      | ok _ =>
        simp only [hee]
        simp only [hee] at hok
        rw [ih fs' _ hok, tocCollect_acc, tocsPure, List.append_assoc]

lemma mem_tocCollect_nil (toDir path q : FPath) :
    q ∈ tocCollect toDir path [] ↔
      q = path ∧ toDir.isPrefixOf path = true ∧ pathExt path = some "toc" ∧
        (path.drop toDir.length).length = 2 := by
  unfold tocCollect
  cases hx : pathExt path with
  | none => simp [hx]
  | some ext =>
    by_cases h1 : toDir.isPrefixOf path
    · by_cases h2 : ext = "toc" ∧ (path.drop toDir.length).length = 2
      · obtain ⟨rfl, hlen⟩ := h2
        simp [h1, hlen, hx]
      · simp only [h1, if_true, if_neg h2, List.not_mem_nil, false_iff]
        rintro ⟨rfl, -, hext, hlen⟩
        injection hext with hext
        exact h2 ⟨hext, hlen⟩
    · simp only [Bool.not_eq_true] at h1
      simp [h1, hx]

lemma toDir_isPrefixOf_destPath (toDir : FPath) (name : String) :
    toDir.isPrefixOf (destPath toDir name) = true := by
  rw [List.isPrefixOf_iff_prefix]
  exact ⟨sanitizeName name, rfl⟩

/-- C6: during extraction the destination path of an entry is collected
as a manifest candidate iff its extension is `toc` and the path made
relative to the installation root has exactly two segments; deeper
nested manifest-like files and top-level files are never collected. -/
theorem C6_toc_iff (o : Oracle) (toDir : FPath) (entries : List ZipEntry)
    (fs : FS) (hok : (extractLoop o toDir entries fs []).1 = .ok ()) :
    ∀ q : FPath, q ∈ (extractLoop o toDir entries fs []).2.2 ↔
      ∃ e ∈ entries, q = destPath toDir e.name ∧ pathExt q = some "toc" ∧
        (q.drop toDir.length).length = 2 := by
  intro q
  rw [extractLoop_tocs o toDir entries fs [] hok, List.nil_append]
  clear hok
  induction entries with
  | nil => simp [tocsPure]
  | cons e rest ih =>
    rw [tocsPure, List.mem_append, ih]
    constructor
    · rintro (hc | ⟨e', he', hq⟩)
      · rw [mem_tocCollect_nil] at hc
        exact ⟨e, List.mem_cons_self e rest, hc.1, hc.1 ▸ hc.2.2.1, hc.1 ▸ hc.2.2.2⟩
      · exact ⟨e', List.mem_cons_of_mem e he', hq⟩
    · rintro ⟨e', he', hq, hext, hlen⟩
      rcases List.mem_cons.mp he' with rfl | he'
      · left
        rw [mem_tocCollect_nil]
        exact ⟨hq, toDir_isPrefixOf_destPath toDir e'.name, hq ▸ hext, hq ▸ hlen⟩
      · right
        exact ⟨e', he', hq, hext, hlen⟩

/-- The archive used by the C6 witness: one proper manifest, one nested
manifest, one top-level manifest-named file. -/
def entriesC6 : List ZipEntry :=
  [⟨"AddonA/AddonA.toc", "t1"⟩, ⟨"AddonA/sub/deep.toc", "t3"⟩, ⟨"top.toc", "t"⟩]

/-- C6 witness. -/
theorem C6_witness :
    ["addons", "AddonA", "AddonA.toc"] ∈
      (extractLoop okOracle ["addons"] entriesC6 ⟨[["addons"]], [], []⟩ []).2.2 ∧
    ["addons", "AddonA", "sub", "deep.toc"] ∉
      (extractLoop okOracle ["addons"] entriesC6 ⟨[["addons"]], [], []⟩ []).2.2 ∧
    ["addons", "top.toc"] ∉
      (extractLoop okOracle ["addons"] entriesC6 ⟨[["addons"]], [], []⟩ []).2.2 := by
  have h := C6_toc_iff okOracle ["addons"] entriesC6 ⟨[["addons"]], [], []⟩ (by decide)
  refine ⟨(h _).mpr ?_, fun hm => ?_, fun hm => ?_⟩
  · exact ⟨⟨"AddonA/AddonA.toc", "t1"⟩, by decide, by decide, by decide, by decide⟩
  · have := (h _).mp hm
    revert this
    decide
  · have := (h _).mp hm
    revert this
    decide

/-! ## The AddonFolder order, sorting and deduplication -/

lemma charListLt_trichotomy : ∀ x y : List Char,
    charListLt x y = true ∨ x = y ∨ charListLt y x = true
  | [], [] => Or.inr (Or.inl rfl)
  | [], _ :: _ => Or.inl rfl
  | _ :: _, [] => Or.inr (Or.inr rfl)
  | a :: as, b :: bs => by
    rcases lt_trichotomy a b with h | h | h
    · left
      simp [charListLt, h]
    · subst h
      rcases charListLt_trichotomy as bs with h' | h' | h'
      · left
        simp [charListLt, h', lt_self_iff_false]
      · right
        left
        rw [h']
      · right
        right
        simp [charListLt, h', lt_self_iff_false]
    · right
      right
      simp [charListLt, h]

lemma charListLt_irrefl : ∀ x : List Char, charListLt x x = false
  | [] => rfl
  | a :: as => by
    simp [charListLt, lt_self_iff_false, charListLt_irrefl as]

lemma charListLt_asymm : ∀ x y : List Char,
    charListLt x y = true → ¬ charListLt y x = true
  | [], [], h, _ => by simp [charListLt] at h
  | [], _ :: _, _, h' => by simp [charListLt] at h'
  | _ :: _, [], h, _ => by simp [charListLt] at h
  | a :: as, b :: bs, h, h' => by
    simp only [charListLt] at h h'
    by_cases h1 : a < b
    · rw [if_neg (asymm h1)] at h'
      by_cases h2 : b = a
      · exact absurd (h2 ▸ h1) (lt_irrefl _)
      · rw [if_neg h2] at h'
        simp at h'
    · rw [if_neg h1] at h
      by_cases h2 : a = b
      · subst h2
        rw [if_pos rfl] at h
        rw [if_neg h1, if_pos rfl] at h'
        exact charListLt_asymm as bs h h'
      · rw [if_neg h2] at h
        simp at h

lemma charListLt_trans : ∀ x y z : List Char,
    charListLt x y = true → charListLt y z = true → charListLt x z = true
  | [], [], _, h, _ => by simp [charListLt] at h
  | [], _ :: _, [], _, h' => by simp [charListLt] at h'
  | [], _ :: _, _ :: _, _, _ => rfl
  | _ :: _, [], _, h, _ => by simp [charListLt] at h
  | _ :: _, _ :: _, [], _, h' => by simp [charListLt] at h'
  | a :: as, b :: bs, c :: cs, h, h' => by
    simp only [charListLt] at h h' ⊢
    by_cases h1 : a < b
    · by_cases h2 : b < c
      · simp [lt_trans h1 h2]
      · rw [if_neg h2] at h'
        by_cases h3 : b = c
        · subst h3
          simp [h1]
        · rw [if_neg h3] at h'
          simp at h'
    · rw [if_neg h1] at h
      by_cases h1' : a = b
      · subst h1'
        rw [if_pos rfl] at h
        by_cases h2 : a < c
        · simp [h2]
        · rw [if_neg h2] at h' ⊢
          by_cases h3 : a = c
          · subst h3
            rw [if_pos rfl] at h' ⊢
            exact charListLt_trans as bs cs h h'
          · rw [if_neg h3] at h'
            simp at h'
      · rw [if_neg h1'] at h
        simp at h

lemma strLt_trichotomy (a b : String) :
    strLt a b = true ∨ a = b ∨ strLt b a = true := by
  rcases charListLt_trichotomy a.data b.data with h | h | h
  · exact Or.inl h
  · exact Or.inr (Or.inl (congrArg String.mk h))
  · exact Or.inr (Or.inr h)

lemma strLt_irrefl (a : String) : strLt a a = false :=
  charListLt_irrefl a.data

lemma strLt_asymm (a b : String) (h : strLt a b = true) :
    ¬ strLt b a = true :=
  charListLt_asymm a.data b.data h

lemma strLt_trans (a b c : String) (h : strLt a b = true)
    (h' : strLt b c = true) : strLt a c = true :=
  charListLt_trans a.data b.data c.data h h'

lemma pathLe_total : ∀ a b : FPath, pathLe a b = true ∨ pathLe b a = true
  | [], _ => Or.inl rfl
  | _ :: _, [] => Or.inr rfl
  | a :: as, b :: bs => by
    rcases strLt_trichotomy a b with h | h | h
    · left
      simp [pathLe, h]
    · subst h
      rcases pathLe_total as bs with h' | h'
      · left
        simp [pathLe, h', strLt_irrefl]
      · right
        simp [pathLe, h', strLt_irrefl]
    · right
      simp [pathLe, h]

lemma pathLe_trans : ∀ a b c : FPath,
    pathLe a b = true → pathLe b c = true → pathLe a c = true
  | [], _, _, _, _ => rfl
  | _ :: _, [], _, hab, _ => by simp [pathLe] at hab
  | _ :: _, _ :: _, [], _, hbc => by simp [pathLe] at hbc
  | a :: as, b :: bs, c :: cs, hab, hbc => by
    simp only [pathLe] at hab hbc ⊢
    by_cases h1 : strLt a b = true
    · by_cases h2 : strLt b c = true
      · simp [strLt_trans a b c h1 h2]
      · rw [if_neg h2] at hbc
        by_cases h3 : b = c
        · subst h3
          simp [h1]
        · rw [if_neg h3] at hbc
          simp at hbc
    · rw [if_neg h1] at hab
      by_cases h1' : a = b
      · subst h1'
        rw [if_pos rfl] at hab
        by_cases h2 : strLt a c = true
        · simp [h2]
        · rw [if_neg h2] at hbc ⊢
          by_cases h3 : a = c
          · subst h3
            rw [if_pos rfl] at hbc ⊢
            exact pathLe_trans as bs cs hab hbc
          · rw [if_neg h3] at hbc
            simp at hbc
      · rw [if_neg h1'] at hab
        simp at hab

lemma pathLe_antisymm : ∀ a b : FPath,
    pathLe a b = true → pathLe b a = true → a = b
  | [], [], _, _ => rfl
  | [], _ :: _, _, hba => by simp [pathLe] at hba
  | _ :: _, [], hab, _ => by simp [pathLe] at hab
  | a :: as, b :: bs, hab, hba => by
    simp only [pathLe] at hab hba
    by_cases h1 : strLt a b = true
    · rw [if_neg (strLt_asymm a b h1)] at hba
      by_cases h3 : b = a
      · subst h3
        exact absurd h1 (by simp [strLt_irrefl])
      · rw [if_neg h3] at hba
        simp at hba
    · rw [if_neg h1] at hab
      by_cases h2 : a = b
      · subst h2
        rw [if_pos rfl] at hab
        rw [if_neg (by simp [strLt_irrefl] : ¬ strLt a a = true), if_pos rfl] at hba
        rw [pathLe_antisymm as bs hab hba]
      · rw [if_neg h2] at hab
        simp at hab

lemma afLe_total (a b : AddonFolder) : afLeP a b ∨ afLeP b a := by
  unfold afLeP afLe
  rcases strLt_trichotomy a.id b.id with h | h | h
  · left
    simp [h]
  · rcases pathLe_total a.path b.path with h' | h'
    · left
      simp [h, h', strLt_irrefl]
    · right
      simp [h, h', strLt_irrefl]
  · right
    simp [h]

lemma afLe_trans (a b c : AddonFolder) :
    afLeP a b → afLeP b c → afLeP a c := by
  unfold afLeP afLe
  intro hab hbc
  by_cases h1 : strLt a.id b.id = true
  · by_cases h2 : strLt b.id c.id = true
    · simp [strLt_trans _ _ _ h1 h2]
    · rw [if_neg h2] at hbc
      by_cases h3 : b.id = c.id
      · simp [h3 ▸ h1]
      · rw [if_neg h3] at hbc
        simp at hbc
  · rw [if_neg h1] at hab
    by_cases h1' : a.id = b.id
    · rw [if_pos h1'] at hab
      by_cases h2 : strLt b.id c.id = true
      · simp [h1' ▸ h2]
      · rw [if_neg h2] at hbc
        by_cases h3 : b.id = c.id
        · rw [if_pos h3] at hbc
          rw [if_neg (h1' ▸ h3 ▸ h2), if_pos (h1'.trans h3)]
          exact pathLe_trans _ _ _ hab hbc
        · rw [if_neg h3] at hbc
          simp at hbc
    · rw [if_neg h1'] at hab
      simp at hab

lemma afLe_antisymm (a b : AddonFolder) :
    afLeP a b → afLeP b a → a = b := by
  unfold afLeP afLe
  intro hab hba
  by_cases h1 : strLt a.id b.id = true
  · rw [if_neg (strLt_asymm _ _ h1)] at hba
    by_cases h3 : b.id = a.id
    · exact absurd (h3 ▸ h1) (by simp [strLt_irrefl])
    · rw [if_neg h3] at hba
      simp at hba
  · rw [if_neg h1] at hab
    by_cases h2 : a.id = b.id
    · rw [if_pos h2] at hab
      rw [if_neg (h2 ▸ h1), if_pos h2.symm] at hba
      have hp := pathLe_antisymm _ _ hab hba
      cases a with
      | mk ai ap =>
        cases b with
        | mk bi bp =>
          simp only at h2 hp
          rw [h2, hp]
    · rw [if_neg h2] at hab
      simp at hab

instance : IsTotal AddonFolder afLeP := ⟨afLe_total⟩

instance : IsTrans AddonFolder afLeP := ⟨afLe_trans⟩

/-- Sorting and then removing consecutive duplicates yields a sorted
list with no duplicates at all, and preserves membership. -/
lemma dedupAdj_sorted_nodup : ∀ l : List AddonFolder, l.Sorted afLeP →
    (dedupAdj l).Nodup ∧ (dedupAdj l).Sorted afLeP ∧
      ∀ a, a ∈ dedupAdj l ↔ a ∈ l
  | [], _ => ⟨List.nodup_nil, List.sorted_nil, fun a => Iff.rfl⟩
  | [a], _ => by
    refine ⟨List.nodup_singleton a, List.sorted_singleton a, fun x => ?_⟩
    rw [dedupAdj]
  | a :: b :: rest, h => by
    have htail : (b :: rest).Sorted afLeP := h.of_cons
    have hab : ∀ x ∈ b :: rest, afLeP a x := (List.sorted_cons.mp h).1
    obtain ⟨nd, srt, hmem⟩ := dedupAdj_sorted_nodup (b :: rest) htail
    rw [dedupAdj]
    by_cases he : a = b
    · rw [if_pos he]
      refine ⟨nd, srt, fun x => (hmem x).trans ?_⟩
      subst he
      simp [List.mem_cons]
    · rw [if_neg he]
      have hnotin : a ∉ dedupAdj (b :: rest) := by
        intro hin
        rcases List.mem_cons.mp ((hmem a).mp hin) with rfl | hin'
        · exact he rfl
        · have h1 : afLeP b a := (List.sorted_cons.mp htail).1 a hin'
          have h2 : afLeP a b := hab b (List.mem_cons_self b rest)
          exact he (afLe_antisymm a b h2 h1)
      refine ⟨List.nodup_cons.mpr ⟨hnotin, nd⟩, ?_, fun x => ?_⟩
      · rw [List.sorted_cons]
        exact ⟨fun x hx => hab x ((hmem x).mp hx), srt⟩
      · rw [List.mem_cons, hmem x, List.mem_cons]
        simp [List.mem_cons]

lemma install_ok_shape (o : Oracle) (parse : FPath → Option AddonFolder)
    (addon : Addon) (fromD toD : FPath) (fs : FS) (lst : List AddonFolder)
    (h : (install_addon o parse addon fromD toD fs).1 = .ok lst) :
    ∃ tocs : List FPath,
      lst = dedupAdj (List.insertionSort afLeP (tocs.filterMap parse)) := by
  simp only [install_addon] at h
  split at h
  · simp at h
  · split at h
    · simp at h
    · split at h
      · simp at h
      · split at h
        · simp at h
        · simp only [Except.ok.injEq] at h
          exact ⟨_, h.symm⟩

/-- The disk for the C5 multi-manifest scenario: the archive holds two
manifests in the same top-level folder. -/
def fsC5 : FS :=
  ⟨[[], ["addons"], ["from"]],
    [(["from", "pkg.zip"], .zipArchive
      [⟨"AddonA/AddonA.toc", "t1"⟩, ⟨"AddonA/AddonA-Lib.toc", "t2"⟩])], []⟩

/-- C5: a successful `install_addon` returns a list that is sorted in
the AddonFolder order and has no duplicates; in particular a
multi-manifest archive whose manifests resolve to the same AddonFolder
identity yields exactly one entry for it. -/
theorem C5_sorted_dedup :
    (∀ (o : Oracle) (parse : FPath → Option AddonFolder) (addon : Addon)
      (fromD toD : FPath) (fs : FS) (lst : List AddonFolder),
      (install_addon o parse addon fromD toD fs).1 = .ok lst →
      lst.Sorted afLeP ∧ lst.Nodup) ∧
    (install_addon okOracle (fun p => some ⟨"AddonA", p.dropLast⟩)
      ⟨"pkg.zip", []⟩ ["from"] ["addons"] fsC5).1 =
      .ok [⟨"AddonA", ["addons", "AddonA"]⟩] := by
  constructor
  · intro o parse addon fromD toD fs lst h
    obtain ⟨tocs, rfl⟩ := install_ok_shape o parse addon fromD toD fs lst h
    have hs : (List.insertionSort afLeP (tocs.filterMap parse)).Sorted afLeP :=
      List.sorted_insertionSort afLeP (tocs.filterMap parse)
    obtain ⟨nd, srt, _⟩ := dedupAdj_sorted_nodup _ hs
    exact ⟨srt, nd⟩
  · decide

/-- C5 witness. -/
theorem C5_witness :
    ([⟨"AddonA", ["addons", "AddonA"]⟩] : List AddonFolder).Sorted afLeP ∧
    ([⟨"AddonA", ["addons", "AddonA"]⟩] : List AddonFolder).Nodup :=
  C5_sorted_dedup.1 okOracle (fun p => some ⟨"AddonA", p.dropLast⟩)
    ⟨"pkg.zip", []⟩ ["from"] ["addons"] fsC5 _ C5_sorted_dedup.2

/-! ## Path-traversal containment during extraction -/

lemma existsP_of_mem_dirs (fs : FS) (p : FPath) (h : p ∈ fs.dirs) :
    fs.existsP p = true := by
  unfold FS.existsP
  rw [Bool.or_eq_true]
  exact Or.inl (List.elem_eq_true_of_mem h)

lemma dest_eq_toDir_iff (toDir : FPath) (name : String) :
    destPath toDir name = toDir ↔ sanitizeName name = [] := by
  unfold destPath
  constructor
  · intro h
    have hlen := congrArg List.length h
    simp only [List.length_append] at hlen
    exact List.eq_nil_of_length_eq_zero (by omega)
  · intro h
    simp [h]

lemma extractEntry_dirs_mono (o : Oracle) (toDir : FPath) (e : ZipEntry)
    (fs : FS) (d : FPath) (h : d ∈ fs.dirs) :
    d ∈ ((extractEntry o toDir e fs).2).dirs := by
  unfold extractEntry mkDirAllOp writeFileOp
  by_cases hd : e.isDirE = true
  · rw [if_pos hd]
    by_cases hm : o.mkDirFail (destPath toDir e.name) = true
    · rw [if_pos hm]
      simpa [FS.addLog] using h
    · rw [if_neg hm]
      simp [FS.mkDirAll, h]
  · rw [if_neg hd]
    by_cases hnil : destPath toDir e.name = []
    · rw [if_pos hnil]
      dsimp only
      by_cases hw : o.writeFail (destPath toDir e.name) = true
      · rw [if_pos hw]
        simpa [FS.addLog] using h
      · rw [if_neg hw]
        simpa [FS.writeFile] using h
    · rw [if_neg hnil]
      by_cases hex : fs.existsP ((destPath toDir e.name).dropLast) = true
      · rw [if_pos hex]
        dsimp only
        by_cases hw : o.writeFail (destPath toDir e.name) = true
        · rw [if_pos hw]
          simpa [FS.addLog] using h
        · rw [if_neg hw]
          simpa [FS.writeFile] using h
      · rw [if_neg hex]
        by_cases hm : o.mkDirFail ((destPath toDir e.name).dropLast) = true
        · rw [if_pos hm]
          dsimp only
          simpa [FS.addLog] using h
        · rw [if_neg hm]
          dsimp only
          by_cases hw : o.writeFail (destPath toDir e.name) = true
          · rw [if_pos hw]
            simp [FS.mkDirAll, FS.addLog, h]
          · rw [if_neg hw]
            simp [FS.mkDirAll, FS.writeFile, h]

/-- Every log entry appended by the extraction of one entry is the
destination's `create_dir_all`/`File::create` or the parent probe's
`create_dir_all`; provided the target root and its parent are existing
directories, every such call path extends `toDir`, and a call path can
equal `toDir` itself only when the entry's name sanitized away to
nothing. -/
lemma extractEntry_log (o : Oracle) (toDir : FPath) (e : ZipEntry) (fs : FS)
    (hroot : toDir ∈ fs.dirs) (hpar : toDir.dropLast ∈ fs.dirs) :
    ∀ c ∈ ((extractEntry o toDir e fs).2).log,
      c ∈ fs.log ∨
        (toDir <+: c.path ∧ (c.path = toDir → sanitizeName e.name = [])) := by
  intro c hc
  have hpre : toDir <+: destPath toDir e.name := ⟨sanitizeName e.name, rfl⟩
  have hdest : ∀ p : FPath, p = destPath toDir e.name →
      toDir <+: p ∧ (p = toDir → sanitizeName e.name = []) := by
    rintro p rfl
    exact ⟨hpre, fun h => (dest_eq_toDir_iff toDir e.name).mp h⟩
  unfold extractEntry mkDirAllOp writeFileOp at hc
  by_cases hd : e.isDirE = true
  · rw [if_pos hd] at hc
    by_cases hm : o.mkDirFail (destPath toDir e.name) = true
    · rw [if_pos hm] at hc
      simp only [FS.addLog, List.mem_append, List.mem_singleton] at hc
      rcases hc with hc | hc
      · exact Or.inl hc
      · exact Or.inr (hc ▸ hdest _ rfl)
    · rw [if_neg hm] at hc
      simp only [FS.mkDirAll, List.mem_append, List.mem_singleton] at hc
      rcases hc with hc | hc
      · exact Or.inl hc
      · exact Or.inr (hc ▸ hdest _ rfl)
  · rw [if_neg hd] at hc
    by_cases hnil : destPath toDir e.name = []
    · rw [if_pos hnil] at hc
      dsimp only at hc
      by_cases hw : o.writeFail (destPath toDir e.name) = true
      · rw [if_pos hw] at hc
        simp only [FS.addLog, List.mem_append, List.mem_singleton] at hc
        rcases hc with hc | hc
        · exact Or.inl hc
        · exact Or.inr (hc ▸ hdest _ rfl)
      · rw [if_neg hw] at hc
        simp only [FS.writeFile, List.mem_append, List.mem_singleton] at hc
        rcases hc with hc | hc
        · exact Or.inl hc
        · exact Or.inr (hc ▸ hdest _ rfl)
    · rw [if_neg hnil] at hc
      by_cases hex : fs.existsP ((destPath toDir e.name).dropLast) = true
      · rw [if_pos hex] at hc
        dsimp only at hc
        by_cases hw : o.writeFail (destPath toDir e.name) = true
        · rw [if_pos hw] at hc
          simp only [FS.addLog, List.mem_append, List.mem_singleton] at hc
          rcases hc with hc | hc
          · exact Or.inl hc
          · exact Or.inr (hc ▸ hdest _ rfl)
        · rw [if_neg hw] at hc
          simp only [FS.writeFile, List.mem_append, List.mem_singleton] at hc
          rcases hc with hc | hc
          · exact Or.inl hc
          · exact Or.inr (hc ▸ hdest _ rfl)
      · rw [if_neg hex] at hc
        have hs : sanitizeName e.name ≠ [] := by
          intro h0
          have hdt : destPath toDir e.name = toDir := by
            unfold destPath
            rw [h0, List.append_nil]
          rw [hdt] at hex
          exact hex (existsP_of_mem_dirs fs _ hpar)
        have hdl : (destPath toDir e.name).dropLast =
            toDir ++ (sanitizeName e.name).dropLast :=
          List.dropLast_append_of_ne_nil toDir hs
        have hppre : toDir <+: (destPath toDir e.name).dropLast :=
          hdl ▸ ⟨(sanitizeName e.name).dropLast, rfl⟩
        have hpne : (destPath toDir e.name).dropLast ≠ toDir := by
          intro h0
          rw [h0] at hex
          exact hex (existsP_of_mem_dirs fs _ hroot)
        have hparfact : ∀ p : FPath, p = (destPath toDir e.name).dropLast →
            toDir <+: p ∧ (p = toDir → sanitizeName e.name = []) := by
          rintro p rfl
          exact ⟨hppre, fun h => absurd h hpne⟩
        by_cases hm : o.mkDirFail ((destPath toDir e.name).dropLast) = true
        · rw [if_pos hm] at hc
          dsimp only at hc
          simp only [FS.addLog, List.mem_append, List.mem_singleton] at hc
          rcases hc with hc | hc
          · exact Or.inl hc
          · exact Or.inr (hc ▸ hparfact _ rfl)
        · rw [if_neg hm] at hc
          dsimp only at hc
          by_cases hw : o.writeFail (destPath toDir e.name) = true
          · rw [if_pos hw] at hc
            simp only [FS.mkDirAll, FS.addLog, List.mem_append,
              List.mem_singleton] at hc
            rcases hc with (hc | hc) | hc
            · exact Or.inl hc
            · exact Or.inr (hc ▸ hparfact _ rfl)
            · exact Or.inr (hc ▸ hdest _ rfl)
          · rw [if_neg hw] at hc
            simp only [FS.mkDirAll, FS.writeFile, List.mem_append,
              List.mem_singleton] at hc
            rcases hc with (hc | hc) | hc
            · exact Or.inl hc
            · exact Or.inr (hc ▸ hparfact _ rfl)
            · exact Or.inr (hc ▸ hdest _ rfl)

lemma extractLoop_log (o : Oracle) (toDir : FPath) :
    ∀ (entries : List ZipEntry) (fs : FS) (acc : List FPath),
      toDir ∈ fs.dirs → toDir.dropLast ∈ fs.dirs →
      ∀ c ∈ ((extractLoop o toDir entries fs acc).2.1).log,
        c ∈ fs.log ∨
          (toDir <+: c.path ∧
            (c.path = toDir → ∃ e ∈ entries, sanitizeName e.name = [])) := by
  intro entries
  induction entries with
  | nil =>
    intro fs acc _ _ c hc
    exact Or.inl (by simpa [extractLoop] using hc)
  | cons e rest ih =>
    intro fs acc hroot hpar c hc
    rw [extractLoop] at hc
    cases hee : extractEntry o toDir e fs with
    | mk r fs' =>
      have hroot' : toDir ∈ fs'.dirs := by
        have hmono := extractEntry_dirs_mono o toDir e fs toDir hroot
        rw [hee] at hmono
        exact hmono
      have hpar' : toDir.dropLast ∈ fs'.dirs := by
        have hmono := extractEntry_dirs_mono o toDir e fs toDir.dropLast hpar
        rw [hee] at hmono
        exact hmono
      have hlog : ∀ c' ∈ fs'.log, c' ∈ fs.log ∨
          (toDir <+: c'.path ∧ (c'.path = toDir → sanitizeName e.name = [])) := by
        intro c' hc'
        exact extractEntry_log o toDir e fs hroot hpar c' (by rw [hee]; exact hc')
      cases r with
      | error er =>
        rw [hee] at hc
        dsimp only at hc
        rcases hlog c hc with h | ⟨h1, h2⟩
        · exact Or.inl h
        · exact Or.inr ⟨h1, fun hp => ⟨e, List.mem_cons_self e rest, h2 hp⟩⟩
      | ok u =>
        rw [hee] at hc
        dsimp only at hc
        rcases ih fs' _ hroot' hpar' c hc with h | ⟨h1, h2⟩
        · rcases hlog c h with h' | ⟨h1, h2⟩
          · exact Or.inl h'
          · exact Or.inr ⟨h1, fun hp => ⟨e, List.mem_cons_self e rest, h2 hp⟩⟩
        · refine Or.inr ⟨h1, fun hp => ?_⟩
          obtain ⟨e', he', hs⟩ := h2 hp
          exact ⟨e', List.mem_cons_of_mem e he', hs⟩

/-- C2, amended.  Provided the installation root and its parent exist
as directories, every `create_dir_all` and file-write call made during
extraction targets a path contained in `to_directory` (the root is a
path-prefix of it) — no call, and hence no write, ever lands outside
the target root, for every archive input including `..`, absolute and
otherwise malformed entry names.  If moreover every entry's sanitized
name is nonempty, every such call lands strictly inside the root.  (An
entry whose name sanitizes away to nothing — e.g. `..`, `/` or the
empty name — degrades to a write targeting the root itself, which is
inside but not strictly inside; see the counterexample.) -/
theorem C2_amended (o : Oracle) (toDir : FPath) (entries : List ZipEntry)
    (fs : FS) (acc : List FPath) (hroot : toDir ∈ fs.dirs)
    (hpar : toDir.dropLast ∈ fs.dirs) :
    (∀ c ∈ ((extractLoop o toDir entries fs acc).2.1).log,
      c ∈ fs.log ∨ toDir <+: c.path) ∧
    ((∀ e ∈ entries, sanitizeName e.name ≠ []) →
      ∀ c ∈ ((extractLoop o toDir entries fs acc).2.1).log,
        c ∈ fs.log ∨ (toDir <+: c.path ∧ c.path ≠ toDir)) := by
  constructor
  · intro c hc
    rcases extractLoop_log o toDir entries fs acc hroot hpar c hc with h | ⟨h1, _⟩
    · exact Or.inl h
    · exact Or.inr h1
  · intro hall c hc
    rcases extractLoop_log o toDir entries fs acc hroot hpar c hc with h | ⟨h1, h2⟩
    · exact Or.inl h
    · refine Or.inr ⟨h1, fun hp => ?_⟩
      obtain ⟨e, he, hs⟩ := h2 hp
      exact hall e he hs

/-- C2, counterexample to the claim as stated: the file entry named
`..` sanitizes to nothing, so its destination is the target root
itself and the extraction's write call targets exactly the root — not
a destination strictly inside it. -/
theorem C2_counterexample :
    sanitizeName ".." = [] ∧
    destPath ["addons"] ".." = ["addons"] ∧
    FsCall.write ["addons"] ∈
      ((extractLoop okOracle ["addons"] [⟨"..", "x"⟩]
        ⟨[[], ["addons"]], [], []⟩ []).2.1).log := by
  decide

/-- The disk used by the C2 witness. -/
def fsC2W : FS := ⟨[[], ["addons"]], [], []⟩

/-- C2 witness. -/
theorem C2_witness :
    (∀ c ∈ ((extractLoop okOracle ["addons"] [⟨"AddonA/AddonA.toc", "t"⟩]
        fsC2W []).2.1).log,
      c ∈ fsC2W.log ∨ ["addons"] <+: c.path) ∧
    ((∀ e ∈ [(⟨"AddonA/AddonA.toc", "t"⟩ : ZipEntry)], sanitizeName e.name ≠ []) →
      ∀ c ∈ ((extractLoop okOracle ["addons"] [⟨"AddonA/AddonA.toc", "t"⟩]
          fsC2W []).2.1).log,
        c ∈ fsC2W.log ∨ (["addons"] <+: c.path ∧ c.path ≠ ["addons"])) :=
  C2_amended okOracle ["addons"] [⟨"AddonA/AddonA.toc", "t"⟩] fsC2W []
    (by decide) (by decide)

/-! ## Error scoping of install_addon -/

lemma delete_addons_fst_ok (o : Oracle) (h : ∀ p, o.rmDirFail p = false) :
    ∀ (folders : List AddonFolder) (fs : FS),
      (delete_addons o folders fs).1 = .ok ()
  | [], _ => rfl
  | f :: rest, fs => by
    by_cases he : fs.existsP f.path = true
    · have hrec := delete_addons_fst_ok o h rest (fs.removeTree f.path)
      simp only [delete_addons, removeTreeOp, he, if_true, h f.path,
        Bool.false_eq_true, if_false]
      exact hrec
    · have hrec := delete_addons_fst_ok o h rest fs
      simp only [delete_addons, he, Bool.false_eq_true, if_false]
      exact hrec

lemma extractEntry_fst_ok (o : Oracle) (toDir : FPath) (e : ZipEntry) (fs : FS)
    (hm : ∀ p, o.mkDirFail p = false) (hw : ∀ p, o.writeFail p = false) :
    (extractEntry o toDir e fs).1 = .ok () := by
  unfold extractEntry mkDirAllOp writeFileOp
  by_cases hd : e.isDirE = true
  · simp [hd, hm]
  · by_cases hnil : destPath toDir e.name = []
    · simp [hd, hnil, hw]
    · by_cases hex : fs.existsP ((destPath toDir e.name).dropLast) = true
      · simp [hd, hnil, hex, hw]
      · simp [hd, hnil, hex, hm, hw]

lemma extractLoop_fst_ok (o : Oracle) (toDir : FPath)
    (hm : ∀ p, o.mkDirFail p = false) (hw : ∀ p, o.writeFail p = false) :
    ∀ (entries : List ZipEntry) (fs : FS) (acc : List FPath),
      (extractLoop o toDir entries fs acc).1 = .ok ()
  | [], _, _ => rfl
  | e :: rest, fs, acc => by
    rw [extractLoop]
    cases hee : extractEntry o toDir e fs with
    | mk r fs' =>
      have hok := extractEntry_fst_ok o toDir e fs hm hw
      rw [hee] at hok
      simp only at hok
      subst hok
      exact extractLoop_fst_ok o toDir hm hw rest fs' _

lemma extractEntry_fst_write_fail (o : Oracle) (toDir : FPath) (e : ZipEntry)
    (fs : FS) (hd : e.isDirE = false) (hm : ∀ p, o.mkDirFail p = false)
    (hw : o.writeFail (destPath toDir e.name) = true) :
    (extractEntry o toDir e fs).1 =
      .error (.ioFail "write" (destPath toDir e.name)) := by
  unfold extractEntry mkDirAllOp writeFileOp
  by_cases hnil : destPath toDir e.name = []
  · have hw' := hw
    rw [hnil] at hw'
    simp [hd, hnil, hw']
  · by_cases hex : fs.existsP ((destPath toDir e.name).dropLast) = true
    · simp [hd, hnil, hex, hw]
    · simp [hd, hnil, hex, hm, hw]

lemma removeTree_files_keep (fs : FS) (p : FPath) (pc : FPath × FileData)
    (h : pc ∈ fs.files) (hn : ¬ p <+: pc.1) :
    pc ∈ (fs.removeTree p).files := by
  unfold FS.removeTree
  refine List.mem_filter.mpr ⟨h, ?_⟩
  cases hb : List.isPrefixOf p pc.1 with
  | false => simp [hb]
  | true =>
    rw [ List.isPrefixOf_iff_prefix] at hb
    exact absurd hb hn

lemma joinOne_isPre (toDir : FPath) (s : String) : toDir <+: joinOne toDir s := by
  unfold joinOne
  by_cases h : s = ""
  · simp [h]
  · exact ⟨[s], by simp [h]⟩

lemma deleteTopLevel_files_keep (o : Oracle) (toDir : FPath) :
    ∀ (segs : List String) (fs : FS) (pc : FPath × FileData),
      pc ∈ fs.files → ¬ toDir <+: pc.1 →
      pc ∈ (deleteTopLevel o toDir segs fs).files
  | [], _, _, h, _ => h
  | s :: rest, fs, pc, h, hn => by
    have hnj : ¬ joinOne toDir s <+: pc.1 := fun hj =>
      hn ((joinOne_isPre toDir s).trans hj)
    rw [deleteTopLevel]
    by_cases he : fs.existsP (joinOne toDir s) = true
    · rw [if_pos he]
      by_cases hf : o.rmDirFail (joinOne toDir s) = true
      · rw [if_pos hf]
        exact deleteTopLevel_files_keep o toDir rest _ pc h hn
      · rw [if_neg hf]
        exact deleteTopLevel_files_keep o toDir rest _ pc
          (removeTree_files_keep fs _ pc h hnj) hn
    · rw [if_neg he]
      exact deleteTopLevel_files_keep o toDir rest fs pc h hn

lemma extractEntry_files_keep (o : Oracle) (toDir : FPath) (e : ZipEntry)
    (fs : FS) (pc : FPath × FileData) (h : pc ∈ fs.files)
    (hn : ¬ toDir <+: pc.1) :
    pc ∈ ((extractEntry o toDir e fs).2).files := by
  have hne : pc.1 ≠ destPath toDir e.name := fun hq =>
    hn (hq ▸ ⟨sanitizeName e.name, rfl⟩)
  unfold extractEntry mkDirAllOp writeFileOp
  by_cases hd : e.isDirE = true
  · rw [if_pos hd]
    by_cases hm : o.mkDirFail (destPath toDir e.name) = true
    · rw [if_pos hm]
      exact h
    · rw [if_neg hm]
      exact h
  · rw [if_neg hd]
    have hwk : ∀ fs' : FS, pc ∈ fs'.files →
        pc ∈ (fs'.writeFile (destPath toDir e.name) e.content).files := by
      intro fs' h'
      unfold FS.writeFile
      refine List.mem_cons_of_mem _ (List.mem_filter.mpr ⟨h', ?_⟩)
      simpa using hne
    by_cases hnil : destPath toDir e.name = []
    · rw [if_pos hnil]
      dsimp only
      by_cases hw : o.writeFail (destPath toDir e.name) = true
      · rw [if_pos hw]
        exact h
      · rw [if_neg hw]
        exact hwk fs h
    · rw [if_neg hnil]
      by_cases hex : fs.existsP ((destPath toDir e.name).dropLast) = true
      · rw [if_pos hex]
        dsimp only
        by_cases hw : o.writeFail (destPath toDir e.name) = true
        · rw [if_pos hw]
          exact h
        · rw [if_neg hw]
          exact hwk fs h
      · rw [if_neg hex]
        by_cases hm : o.mkDirFail ((destPath toDir e.name).dropLast) = true
        · rw [if_pos hm]
          dsimp only
          exact h
        · rw [if_neg hm]
          dsimp only
          by_cases hw : o.writeFail (destPath toDir e.name) = true
          · rw [if_pos hw]
            exact h
          · rw [if_neg hw]
            exact hwk (fs.mkDirAll _) h

lemma extractLoop_files_keep (o : Oracle) (toDir : FPath) :
    ∀ (entries : List ZipEntry) (fs : FS) (acc : List FPath)
      (pc : FPath × FileData), pc ∈ fs.files → ¬ toDir <+: pc.1 →
      pc ∈ ((extractLoop o toDir entries fs acc).2.1).files
  | [], _, _, _, h, _ => h
  | e :: rest, fs, acc, pc, h, hn => by
    rw [extractLoop]
    cases hee : extractEntry o toDir e fs with
    | mk r fs' =>
      have hkeep := extractEntry_files_keep o toDir e fs pc h hn
      rw [hee] at hkeep
      cases r with
      | error er => exact hkeep
      | ok u => exact extractLoop_files_keep o toDir rest fs' _ pc hkeep hn

lemma openArchive_mem (fs : FS) (p : FPath) (entries : List ZipEntry)
    (h : openArchive fs p = some entries) :
    (p, FileData.zipArchive entries) ∈ fs.files := by
  unfold openArchive lookupFile at h
  cases hf : fs.files.find? (fun pc => pc.1 == p) with
  | none =>
    rw [hf] at h
    simp at h
  | some pc =>
    rw [hf] at h
    have hmem := List.mem_of_find?_eq_some hf
    have hpred := List.find?_some hf
    cases pc with
    | mk a d =>
      have hp1 : a = p := by simpa using hpred
      subst hp1
      cases d with
      | zipArchive es =>
        have hes : es = entries := by
          simpa using h
        subst hes
        exact hmem
      | bytes c =>
        simp at h

lemma c4_step2 (o : Oracle) (parse : FPath → Option AddonFolder)
    (pfid : String) (f : AddonFolder) (rest : List AddonFolder)
    (fromD toD : FPath) (fs : FS) (entries : List ZipEntry)
    (hopen : openArchive fs (fromD ++ [pfid]) = some entries)
    (hex : fs.existsP f.path = true) (hfail : o.rmDirFail f.path = true) :
    (install_addon o parse ⟨pfid, f :: rest⟩ fromD toD fs).1 =
      .error (.ioFail "remove_dir_all" f.path) := by
  have h2 : delete_addons o (f :: rest) fs =
      (.error (.ioFail "remove_dir_all" f.path), fs.addLog (.rmTree f.path)) := by
    simp [delete_addons, removeTreeOp, hex, hfail]
  simp [install_addon, hopen, h2]

lemma c4_step4 (o : Oracle) (parse : FPath → Option AddonFolder)
    (addon : Addon) (fromD toD : FPath) (fs : FS) (e : ZipEntry)
    (hopen : openArchive fs (fromD ++ [addon.primaryFolderId]) = some [e])
    (hrm : ∀ p, o.rmDirFail p = false) (hmk : ∀ p, o.mkDirFail p = false)
    (hd : e.isDirE = false) (hw : o.writeFail (destPath toD e.name) = true) :
    (install_addon o parse addon fromD toD fs).1 =
      .error (.ioFail "write" (destPath toD e.name)) := by
  have h2 : (delete_addons o addon.folders fs).1 = .ok () :=
    delete_addons_fst_ok o hrm addon.folders fs
  cases hdel : delete_addons o addon.folders fs with
  | mk r1 fs1 =>
    rw [hdel] at h2
    simp only at h2
    subst h2
    have hee1 := extractEntry_fst_write_fail o toD e
      (deleteTopLevel o toD (topSegsOf [e]) fs1) hd hmk hw
    cases hee : extractEntry o toD e (deleteTopLevel o toD (topSegsOf [e]) fs1) with
    | mk r fs' =>
      rw [hee] at hee1
      simp only at hee1
      subst hee1
      simp [install_addon, hopen, hdel, extractLoop, hee]

lemma c4_step5 (o : Oracle) (parse : FPath → Option AddonFolder)
    (addon : Addon) (fromD toD : FPath) (fs : FS) (entries : List ZipEntry)
    (hopen : openArchive fs (fromD ++ [addon.primaryFolderId]) = some entries)
    (hrm : ∀ p, o.rmDirFail p = false) (hmk : ∀ p, o.mkDirFail p = false)
    (hwr : ∀ p, o.writeFail p = false)
    (hrf : o.rmFileFail (fromD ++ [addon.primaryFolderId]) = true) :
    (install_addon o parse addon fromD toD fs).1 =
      .error (.ioFail "remove_file" (fromD ++ [addon.primaryFolderId])) := by
  have h2 : (delete_addons o addon.folders fs).1 = .ok () :=
    delete_addons_fst_ok o hrm addon.folders fs
  cases hdel : delete_addons o addon.folders fs with
  | mk r1 fs1 =>
    rw [hdel] at h2
    simp only at h2
    subst h2
    have h4 := extractLoop_fst_ok o toD hmk hwr entries
      (deleteTopLevel o toD (topSegsOf entries) fs1) []
    cases hext : extractLoop o toD entries
        (deleteTopLevel o toD (topSegsOf entries) fs1) [] with
    | mk r2 rest2 =>
      rw [hext] at h4
      simp only at h4
      subst h4
      cases rest2 with
      | mk fs3 tocs =>
        have h5 : removeFileOp o (fromD ++ [addon.primaryFolderId]) fs3 =
            (.error (.ioFail "remove_file" (fromD ++ [addon.primaryFolderId])),
              fs3.addLog (.rmFile (fromD ++ [addon.primaryFolderId]))) := by
          simp [removeFileOp, hrf]
        simp [install_addon, hopen, hdel, hext, h5]

lemma c4_step3_swallowed (o : Oracle) (parse : FPath → Option AddonFolder)
    (pfid : String) (fromD toD : FPath) (fs : FS) (entries : List ZipEntry)
    (hopen : openArchive fs (fromD ++ [pfid]) = some entries)
    (hmk : ∀ p, o.mkDirFail p = false) (hwr : ∀ p, o.writeFail p = false)
    (hrf : o.rmFileFail (fromD ++ [pfid]) = false)
    (hzip : ¬ toD <+: (fromD ++ [pfid])) :
    ∃ lst, (install_addon o parse ⟨pfid, []⟩ fromD toD fs).1 = .ok lst := by
  have hmem0 : ((fromD ++ [pfid], FileData.zipArchive entries) : FPath × FileData)
      ∈ fs.files := openArchive_mem fs _ entries hopen
  have hmem2 := deleteTopLevel_files_keep o toD (topSegsOf entries) fs
    (fromD ++ [pfid], FileData.zipArchive entries) hmem0 hzip
  have h4 := extractLoop_fst_ok o toD hmk hwr entries
    (deleteTopLevel o toD (topSegsOf entries) fs) []
  have hmem3 := extractLoop_files_keep o toD entries
    (deleteTopLevel o toD (topSegsOf entries) fs) []
    (fromD ++ [pfid], FileData.zipArchive entries) hmem2 hzip
  cases hext : extractLoop o toD entries
      (deleteTopLevel o toD (topSegsOf entries) fs) [] with
  | mk r2 rest2 =>
    rw [hext] at h4 hmem3
    simp only at h4
    subst h4
    cases rest2 with
    | mk fs3 tocs =>
      have hany : fs3.files.any (fun pc => pc.1 == (fromD ++ [pfid])) = true := by
        refine List.any_eq_true.mpr ⟨_, hmem3, ?_⟩
        simp
      have h5 : removeFileOp o (fromD ++ [pfid]) fs3 =
          (.ok (), { fs3 with
            files := fs3.files.filter (fun pc => pc.1 != (fromD ++ [pfid])),
            log := fs3.log ++ [.rmFile (fromD ++ [pfid])] }) := by
        simp [removeFileOp, hrf, hany]
      refine ⟨dedupAdj (List.insertionSort afLeP (tocs.filterMap parse)), ?_⟩
      have hdel : delete_addons o ([] : List AddonFolder) fs = (.ok (), fs) := rfl
      simp [install_addon, hopen, hdel, hext, h5]

/-- C4: error scoping of `install_addon`.  (1) An I/O failure deleting
one of `addon.folders` (step 2) aborts with that error; (2) an I/O
failure writing an entry during extraction (step 4) aborts with that
error; (3) an I/O failure deleting the source archive after extraction
(step 5) aborts with that error; (4) failures of the step-3 top-level
cleanup deletions are swallowed — even with every `remove_dir_all`
failing, installation still succeeds. -/
theorem C4_error_scoping :
    (∀ (o : Oracle) (parse : FPath → Option AddonFolder) (pfid : String)
      (f : AddonFolder) (rest : List AddonFolder) (fromD toD : FPath)
      (fs : FS) (entries : List ZipEntry),
      openArchive fs (fromD ++ [pfid]) = some entries →
      fs.existsP f.path = true → o.rmDirFail f.path = true →
      (install_addon o parse ⟨pfid, f :: rest⟩ fromD toD fs).1 =
        .error (.ioFail "remove_dir_all" f.path)) ∧
    (∀ (o : Oracle) (parse : FPath → Option AddonFolder) (addon : Addon)
      (fromD toD : FPath) (fs : FS) (e : ZipEntry),
      openArchive fs (fromD ++ [addon.primaryFolderId]) = some [e] →
      (∀ p, o.rmDirFail p = false) → (∀ p, o.mkDirFail p = false) →
      e.isDirE = false → o.writeFail (destPath toD e.name) = true →
      (install_addon o parse addon fromD toD fs).1 =
        .error (.ioFail "write" (destPath toD e.name))) ∧
    (∀ (o : Oracle) (parse : FPath → Option AddonFolder) (addon : Addon)
      (fromD toD : FPath) (fs : FS) (entries : List ZipEntry),
      openArchive fs (fromD ++ [addon.primaryFolderId]) = some entries →
      (∀ p, o.rmDirFail p = false) → (∀ p, o.mkDirFail p = false) →
      (∀ p, o.writeFail p = false) →
      o.rmFileFail (fromD ++ [addon.primaryFolderId]) = true →
      (install_addon o parse addon fromD toD fs).1 =
        .error (.ioFail "remove_file" (fromD ++ [addon.primaryFolderId]))) ∧
    (∀ (o : Oracle) (parse : FPath → Option AddonFolder) (pfid : String)
      (fromD toD : FPath) (fs : FS) (entries : List ZipEntry),
      openArchive fs (fromD ++ [pfid]) = some entries →
      (∀ p, o.mkDirFail p = false) → (∀ p, o.writeFail p = false) →
      o.rmFileFail (fromD ++ [pfid]) = false →
      ¬ toD <+: (fromD ++ [pfid]) →
      ∃ lst, (install_addon o parse ⟨pfid, []⟩ fromD toD fs).1 = .ok lst) :=
  ⟨c4_step2, c4_step4, c4_step5, c4_step3_swallowed⟩

/-- Archive used by the C4 witness. -/
def entriesW4 : List ZipEntry := [⟨"AddonA/AddonA.toc", "t"⟩]

/-- Disk used by the C4 witness. -/
def fsW4 : FS :=
  ⟨[[], ["addons"], ["addons", "Old"], ["addons", "AddonA"], ["from"]],
    [(["from", "pkg.zip"], .zipArchive entriesW4)], []⟩

/-- Failure oracle for the C4 witness, step-2 part. -/
def oW1 : Oracle :=
  ⟨fun p => p == ["addons", "Old"], fun _ => false, fun _ => false, fun _ => false⟩

/-- Failure oracle for the C4 witness, step-4 part. -/
def oW2 : Oracle :=
  ⟨fun _ => false, fun _ => false, fun _ => false,
    fun p => p == ["addons", "AddonA", "AddonA.toc"]⟩

/-- Failure oracle for the C4 witness, step-5 part. -/
def oW3 : Oracle :=
  ⟨fun _ => false, fun p => p == ["from", "pkg.zip"], fun _ => false, fun _ => false⟩

/-- Failure oracle for the C4 witness, step-3 part: every
`remove_dir_all` fails. -/
def oW4 : Oracle :=
  ⟨fun _ => true, fun _ => false, fun _ => false, fun _ => false⟩

/-- C4 witness. -/
theorem C4_witness :
    (install_addon oW1 (fun _ => none) ⟨"pkg.zip", [⟨"Old", ["addons", "Old"]⟩]⟩
      ["from"] ["addons"] fsW4).1 =
      .error (.ioFail "remove_dir_all" ["addons", "Old"]) ∧
    (install_addon oW2 (fun _ => none) ⟨"pkg.zip", []⟩ ["from"] ["addons"] fsW4).1 =
      .error (.ioFail "write" (destPath ["addons"] "AddonA/AddonA.toc")) ∧
    (install_addon oW3 (fun _ => none) ⟨"pkg.zip", []⟩ ["from"] ["addons"] fsW4).1 =
      .error (.ioFail "remove_file" (["from"] ++ ["pkg.zip"])) ∧
    ∃ lst, (install_addon oW4 (fun _ => none) ⟨"pkg.zip", []⟩
      ["from"] ["addons"] fsW4).1 = .ok lst :=
  ⟨C4_error_scoping.1 oW1 (fun _ => none) "pkg.zip" ⟨"Old", ["addons", "Old"]⟩ []
      ["from"] ["addons"] fsW4 entriesW4 (by decide) (by decide) (by decide),
    C4_error_scoping.2.1 oW2 (fun _ => none) ⟨"pkg.zip", []⟩ ["from"] ["addons"]
      fsW4 ⟨"AddonA/AddonA.toc", "t"⟩ (by decide) (fun _ => rfl) (fun _ => rfl)
      (by decide) (by decide),
    C4_error_scoping.2.2.1 oW3 (fun _ => none) ⟨"pkg.zip", []⟩ ["from"] ["addons"]
      fsW4 entriesW4 (by decide) (fun _ => rfl) (fun _ => rfl) (fun _ => rfl)
      (by decide),
    C4_error_scoping.2.2.2 oW4 (fun _ => none) "pkg.zip" ["from"] ["addons"]
      fsW4 entriesW4 (by decide) (fun _ => rfl) (fun _ => rfl) (by decide)
      (by decide)⟩

/-! ## Well-formed disks and deletion/extraction characterizations -/

/-- A well-formed disk: directories are closed under nonempty initial
portions, and every file's parent is the filesystem root or an existing
directory. -/
def FS.wf (fs : FS) : Prop :=
  (∀ p ∈ fs.dirs, ∀ n < p.length, 0 < n → p.take n ∈ fs.dirs) ∧
  (∀ pc ∈ fs.files, pc.1 ≠ [] ∧ (pc.1.dropLast = [] ∨ pc.1.dropLast ∈ fs.dirs))

lemma take_preOf {q p : FPath} (h : q <+: p) : q = p.take q.length :=
  List.prefix_iff_eq_take.mp h

lemma pre_of_pre_dropLast {q p : FPath} (h : q <+: p) (hlt : q.length < p.length) :
    q <+: p.dropLast := by
  have hd : p.dropLast = p.take (p.length - 1) := (List.dropLast_eq_take p).symm ▸ rfl
  rw [take_preOf h, hd]
  exact List.take_isPrefix_take.mpr (Or.inl (by omega))

/-- On a well-formed disk, a path that does not exist has nothing at or
below it. -/
lemma not_exists_vacuous (fs : FS) (hwf : fs.wf) (q : FPath) (hq : q ≠ [])
    (h : fs.existsP q = false) :
    (∀ d ∈ fs.dirs, ¬ q <+: d) ∧ (∀ pc ∈ fs.files, ¬ q <+: pc.1) := by
  unfold FS.existsP at h
  rw [Bool.or_eq_false_iff] at h
  have hqd : q ∉ fs.dirs := by
    intro hmem
    have := List.elem_eq_true_of_mem hmem
    rw [show fs.dirs.contains q = fs.dirs.elem q from rfl] at h
    rw [h.1] at this
    exact Bool.false_ne_true this
  have hqf : ∀ pc ∈ fs.files, pc.1 ≠ q := by
    intro pc hpc heq
    have : (fs.files.any fun pc => pc.1 == q) = true :=
      List.any_eq_true.mpr ⟨pc, hpc, by simp [heq]⟩
    rw [h.2] at this
    exact Bool.false_ne_true this
  have hdirs : ∀ d ∈ fs.dirs, ¬ q <+: d := by
    intro d hd hpre
    by_cases heq : q = d
    · exact hqd (heq ▸ hd)
    · have hlt : q.length < d.length := by
        rcases Nat.lt_or_ge q.length d.length with hlt | hge
        · exact hlt
        · exact absurd (List.IsPrefix.eq_of_length_le hpre hge) heq
      have := hwf.1 d hd q.length hlt (by
        cases q with
        | nil => exact absurd rfl hq
        | cons a t => simp)
      rw [← take_preOf hpre] at this
      exact hqd this
  refine ⟨hdirs, ?_⟩
  intro pc hpc hpre
  by_cases heq : q = pc.1
  · exact hqf pc hpc heq.symm
  · have hlt : q.length < pc.1.length := by
      rcases Nat.lt_or_ge q.length pc.1.length with hlt | hge
      · exact hlt
      · exact absurd (List.IsPrefix.eq_of_length_le hpre hge) heq
    have hdl := pre_of_pre_dropLast hpre hlt
    rcases (hwf.2 pc hpc).2 with hnil | hdir
    · rw [hnil] at hdl
      exact hq (List.prefix_nil.mp hdl)
    · exact hdirs _ hdir hdl

lemma isPre_false_iff (q p : FPath) :
    List.isPrefixOf q p = false ↔ ¬ q <+: p := by
  rw [Bool.eq_false_iff]
  constructor
  · intro hne hpre
    refine hne ?_
    rw [ List.isPrefixOf_iff_prefix]
    exact hpre
  · intro hn hb
    rw [ List.isPrefixOf_iff_prefix] at hb
    exact hn hb

lemma mem_removeTree_dirs (fs : FS) (q p : FPath) :
    p ∈ (fs.removeTree q).dirs ↔ p ∈ fs.dirs ∧ ¬ q <+: p := by
  simp [FS.removeTree, List.mem_filter, isPre_false_iff]

lemma mem_removeTree_files (fs : FS) (q : FPath) (pc : FPath × FileData) :
    pc ∈ (fs.removeTree q).files ↔ pc ∈ fs.files ∧ ¬ q <+: pc.1 := by
  simp [FS.removeTree, List.mem_filter, isPre_false_iff]

lemma mem_pathPre (q p : FPath) : p ∈ pathPre q ↔ p ≠ [] ∧ p <+: q := by
  unfold pathPre
  simp only [List.mem_map, List.mem_range]
  constructor
  · rintro ⟨n, hn, rfl⟩
    constructor
    · have : (q.take (n + 1)).length = n + 1 := by
        rw [List.length_take]
        omega
      intro hnil
      rw [hnil] at this
      simp at this
    · exact List.take_prefix (n + 1) q
  · rintro ⟨hne, hpre⟩
    have hlen : 0 < p.length := List.length_pos.mpr hne
    have hle : p.length ≤ q.length := hpre.length_le
    refine ⟨p.length - 1, by omega, ?_⟩
    have heq : p.length - 1 + 1 = p.length := by omega
    rw [heq]
    exact (take_preOf hpre).symm

lemma mem_mkDirAll_dirs (fs : FS) (q p : FPath) :
    p ∈ (fs.mkDirAll q).dirs ↔ (p ≠ [] ∧ p <+: q) ∨ p ∈ fs.dirs := by
  simp [FS.mkDirAll, mem_pathPre]

lemma mem_writeFile_files (fs : FS) (q : FPath) (c : String)
    (pc : FPath × FileData) :
    pc ∈ (fs.writeFile q c).files ↔
      pc = (q, FileData.bytes c) ∨ (pc ∈ fs.files ∧ pc.1 ≠ q) := by
  simp [FS.writeFile, List.mem_filter]

lemma mem_addFile_files (fs : FS) (q : FPath) (d : FileData)
    (pc : FPath × FileData) :
    pc ∈ (fs.addFile q d).files ↔
      pc = (q, d) ∨ (pc ∈ fs.files ∧ pc.1 ≠ q) := by
  simp [FS.addFile, List.mem_filter]

lemma removeTree_wf (fs : FS) (q : FPath) (hwf : fs.wf) :
    (fs.removeTree q).wf := by
  constructor
  · intro p hp n hn hpos
    rw [mem_removeTree_dirs] at hp ⊢
    refine ⟨hwf.1 p hp.1 n hn hpos, fun hpre => ?_⟩
    exact hp.2 (hpre.trans (List.take_prefix n p))
  · intro pc hpc
    rw [mem_removeTree_files] at hpc
    obtain ⟨h1, h2⟩ := hwf.2 pc hpc.1
    refine ⟨h1, ?_⟩
    rcases h2 with h2 | h2
    · exact Or.inl h2
    · refine Or.inr ?_
      rw [mem_removeTree_dirs]
      refine ⟨h2, fun hpre => ?_⟩
      exact hpc.2 (hpre.trans (List.dropLast_prefix pc.1))

lemma mkDirAll_wf (fs : FS) (q : FPath) (hwf : fs.wf) :
    (fs.mkDirAll q).wf := by
  constructor
  · intro p hp n hn hpos
    rw [mem_mkDirAll_dirs] at hp ⊢
    rcases hp with ⟨hne, hpre⟩ | hp
    · refine Or.inl ⟨?_, (List.take_prefix n p).trans hpre⟩
      have : (p.take n).length = n := by
        rw [List.length_take]
        omega
      intro hnil
      rw [hnil] at this
      simp at this
      omega
    · exact Or.inr (hwf.1 p hp n hn hpos)
  · intro pc hpc
    have hpc' : pc ∈ fs.files := hpc
    obtain ⟨h1, h2⟩ := hwf.2 pc hpc'
    refine ⟨h1, ?_⟩
    rcases h2 with h2 | h2
    · exact Or.inl h2
    · refine Or.inr ?_
      rw [mem_mkDirAll_dirs]
      exact Or.inr h2

lemma writeFile_wf (fs : FS) (q : FPath) (c : String) (hwf : fs.wf)
    (hq : q ≠ []) (hpar : q.dropLast = [] ∨ q.dropLast ∈ fs.dirs) :
    (fs.writeFile q c).wf := by
  constructor
  · intro p hp n hn hpos
    exact hwf.1 p hp n hn hpos
  · intro pc hpc
    rw [mem_writeFile_files] at hpc
    rcases hpc with rfl | ⟨hpc, _⟩
    · exact ⟨hq, hpar⟩
    · exact hwf.2 pc hpc

lemma addLog_wf (fs : FS) (c : FsCall) (hwf : fs.wf) : (fs.addLog c).wf := hwf

/-- A well-formed archive entry name: plain `/`-separated segments
(with an optional trailing separator for directory entries), no empty,
dot or dot-dot segments, no NUL bytes, no backslashes. -/
def nameOk (name : String) : Prop :=
  let ss := splitSeg name.data
  let core := if ss.getLast? = some [] then ss.dropLast else ss
  core ≠ [] ∧ ∀ s ∈ core, s ≠ [] ∧ s ≠ ['.'] ∧ s ≠ ['.', '.'] ∧
    '\x00' ∉ s ∧ '\\' ∉ s

lemma splitSeg_ne_nil : ∀ cs : List Char, splitSeg cs ≠ []
  | [] => by simp [splitSeg]
  | c :: rest => by
    rw [splitSeg]
    by_cases hc : c = '/'
    · simp [hc]
    · rw [if_neg hc]
      cases hs : splitSeg rest with
      | nil => simp
      | cons s ss => simp

lemma splitSeg_chars : ∀ (cs : List Char) (c : Char), c ∈ cs →
    c = '/' ∨ ∃ s ∈ splitSeg cs, c ∈ s
  | [], _, h => absurd h (List.not_mem_nil _)
  | c' :: rest, c, h => by
    rw [splitSeg]
    by_cases hc : c' = '/'
    · rw [if_pos hc]
      rcases List.mem_cons.mp h with rfl | h
      · exact Or.inl hc
      · rcases splitSeg_chars rest c h with h | ⟨s, hs, hcs⟩
        · exact Or.inl h
        · exact Or.inr ⟨s, List.mem_cons_of_mem _ hs, hcs⟩
    · rw [if_neg hc]
      cases hsp : splitSeg rest with
      | nil => exact absurd hsp (splitSeg_ne_nil rest)
      | cons s ss =>
        rcases List.mem_cons.mp h with rfl | h
        · exact Or.inr ⟨c :: s, List.mem_cons_self _ _, List.mem_cons_self _ _⟩
        · rcases splitSeg_chars rest c h with h | ⟨s', hs', hcs⟩
          · exact Or.inl h
          · rw [hsp] at hs'
            rcases List.mem_cons.mp hs' with rfl | hs'
            · exact Or.inr ⟨c' :: s', List.mem_cons_self _ _,
                List.mem_cons_of_mem _ hcs⟩
            · exact Or.inr ⟨s', List.mem_cons_of_mem _ hs', hcs⟩

lemma takeWhile_all {p : Char → Bool} : ∀ (cs : List Char),
    (∀ c ∈ cs, p c = true) → cs.takeWhile p = cs
  | [], _ => rfl
  | c :: rest, h => by
    rw [List.takeWhile_cons, if_pos (h c (List.mem_cons_self c rest))]
    rw [takeWhile_all rest (fun c hc => h c (List.mem_cons_of_mem _ hc))]

/-- The shape of a sanitized well-formed name: exactly its core
segments, whose head is the raw first segment. -/
lemma nameOk_sanitize (name : String) (h : nameOk name) :
    ∃ c0 crest,
      sanitizeName name =
        (c0 :: crest).map (fun s => (⟨s⟩ : String)) ∧
      headSeg name = ⟨c0⟩ := by
  obtain ⟨hcore, hseg⟩ := h
  set ss := splitSeg name.data with hss
  have hchars : ∀ c ∈ name.data, c ≠ '\x00' ∧ c ≠ '\\' := by
    intro c hc
    rcases splitSeg_chars name.data c hc with rfl | ⟨s, hs, hcs⟩
    · constructor <;> decide
    · have hsc : s ∈ (if ss.getLast? = some [] then ss.dropLast else ss) ∨ s = [] := by
        by_cases hlast : ss.getLast? = some []
        · rw [if_pos hlast]
          have hdec : ss.dropLast ++ [[]] = ss := List.dropLast_append_getLast? [] hlast
          rw [← hss, ← hdec] at hs
          rcases List.mem_append.mp hs with hs | hs
          · exact Or.inl hs
          · simp at hs
            exact Or.inr hs
        · rw [if_neg hlast]
          exact Or.inl hs
      rcases hsc with hsc | rfl
      · obtain ⟨-, -, -, hnul, hbs⟩ := hseg s hsc
        exact ⟨fun he => hnul (he ▸ hcs), fun he => hbs (he ▸ hcs)⟩
      · exact absurd hcs (List.not_mem_nil c)
  have hnonul : name.data.takeWhile (fun c => c ≠ '\x00') = name.data := by
    refine takeWhile_all name.data ?_
    intro c hc
    simpa using (hchars c hc).1
  have hnobs : name.data.map (fun c => if c = '\\' then '/' else c) = name.data := by
    have : ∀ c ∈ name.data,
        (fun c => if c = '\\' then '/' else c) c = id c := by
      intro c hc
      simp [(hchars c hc).2]
    rw [List.map_congr_left this, List.map_id]
  have hsan : sanitizeName name =
      ((splitSeg name.data).filter
        (fun s => s ≠ [] ∧ s ≠ ['.'] ∧ s ≠ ['.', '.'])).map
        (fun s => (⟨s⟩ : String)) := by
    simp only [sanitizeName]
    rw [hnonul, hnobs]
  have hfilter : (ss.filter
      (fun s => s ≠ [] ∧ s ≠ ['.'] ∧ s ≠ ['.', '.'])) =
      (if ss.getLast? = some [] then ss.dropLast else ss) := by
    by_cases hlast : ss.getLast? = some []
    · rw [if_pos hlast]
      have hdec : ss.dropLast ++ [[]] = ss := List.dropLast_append_getLast? [] hlast
      rw [← hdec, List.filter_append]
      have h1 : (ss.dropLast).filter
          (fun s => s ≠ [] ∧ s ≠ ['.'] ∧ s ≠ ['.', '.']) = ss.dropLast := by
        rw [List.filter_eq_self]
        intro s hs
        obtain ⟨h1, h2, h3, -, -⟩ := hseg s (by rw [if_pos hlast]; exact hs)
        simp [h1, h2, h3]
      rw [h1]
      simp
    · rw [if_neg hlast]
      rw [List.filter_eq_self]
      intro s hs
      obtain ⟨h1, h2, h3, -, -⟩ := hseg s (by rw [if_neg hlast]; exact hs)
      simp [h1, h2, h3]
  obtain ⟨c0, crest, hcc⟩ :
      ∃ c0 crest, (if ss.getLast? = some [] then ss.dropLast else ss) = c0 :: crest := by
    cases hc : (if ss.getLast? = some [] then ss.dropLast else ss) with
    | nil => exact absurd hc hcore
    | cons a b => exact ⟨a, b, rfl⟩
  refine ⟨c0, crest, ?_, ?_⟩
  · rw [hsan, ← hss, hfilter, hcc]
  · unfold headSeg
    have hhead : ∃ tail, splitSeg name.data = c0 :: tail := by
      by_cases hlast : ss.getLast? = some []
      · rw [if_pos hlast] at hcc
        have hdec : ss.dropLast ++ [[]] = ss := List.dropLast_append_getLast? [] hlast
        refine ⟨crest ++ [[]], ?_⟩
        rw [← hss, ← hdec, hcc]
        simp
      · rw [if_neg hlast] at hcc
        exact ⟨crest, hss ▸ hcc⟩
    obtain ⟨tail, htail⟩ := hhead
    rw [htail]

lemma existsP_iff (fs : FS) (p : FPath) :
    fs.existsP p = true ↔ p ∈ fs.dirs ∨ ∃ pc ∈ fs.files, pc.1 = p := by
  unfold FS.existsP
  rw [Bool.or_eq_true, List.any_eq_true]
  constructor
  · rintro (h | ⟨pc, hpc, hb⟩)
    · exact Or.inl (by simpa using h)
    · exact Or.inr ⟨pc, hpc, by simpa using hb⟩
  · rintro (h | ⟨pc, hpc, hb⟩)
    · exact Or.inl (List.elem_eq_true_of_mem h)
    · exact Or.inr ⟨pc, hpc, by simp [hb]⟩

lemma delete_addons_charac (folders : List AddonFolder) :
    ∀ fs : FS, fs.wf → (∀ f ∈ folders, f.path ≠ []) →
      ((delete_addons okOracle folders fs).2).wf ∧
      (∀ p, p ∈ ((delete_addons okOracle folders fs).2).dirs ↔
        p ∈ fs.dirs ∧ ∀ f ∈ folders, ¬ f.path <+: p) ∧
      (∀ pc, pc ∈ ((delete_addons okOracle folders fs).2).files ↔
        pc ∈ fs.files ∧ ∀ f ∈ folders, ¬ f.path <+: pc.1) := by
  induction folders with
  | nil =>
    intro fs hwf _
    exact ⟨hwf, fun p => by simp [delete_addons], fun pc => by simp [delete_addons]⟩
  | cons f rest ih =>
    intro fs hwf hne
    have hner : ∀ g ∈ rest, g.path ≠ [] :=
      fun g hg => hne g (List.mem_cons_of_mem f hg)
    by_cases he : fs.existsP f.path = true
    · have hred : delete_addons okOracle (f :: rest) fs =
          delete_addons okOracle rest (fs.removeTree f.path) := by
        simp [delete_addons, removeTreeOp, he, okOracle]
      obtain ⟨ihwf, ihd, ihf⟩ :=
        ih (fs.removeTree f.path) (removeTree_wf fs f.path hwf) hner
      rw [hred]
      refine ⟨ihwf, fun p => ?_, fun pc => ?_⟩
      · rw [ihd p, mem_removeTree_dirs, List.forall_mem_cons]
        tauto
      · rw [ihf pc, mem_removeTree_files, List.forall_mem_cons]
        tauto
    · have hred : delete_addons okOracle (f :: rest) fs =
          delete_addons okOracle rest fs := by
        simp [delete_addons, he]
      have hvac := not_exists_vacuous fs hwf f.path
        (hne f (List.mem_cons_self f rest))
        (by
          cases hb : fs.existsP f.path with
          | false => rfl
          | true => exact absurd hb he)
      obtain ⟨ihwf, ihd, ihf⟩ := ih fs hwf hner
      rw [hred]
      refine ⟨ihwf, fun p => ?_, fun pc => ?_⟩
      · rw [ihd p, List.forall_mem_cons]
        constructor
        · rintro ⟨hp, hK⟩
          exact ⟨hp, hvac.1 p hp, hK⟩
        · rintro ⟨hp, -, hK⟩
          exact ⟨hp, hK⟩
      · rw [ihf pc, List.forall_mem_cons]
        constructor
        · rintro ⟨hp, hK⟩
          exact ⟨hp, hvac.2 pc hp, hK⟩
        · rintro ⟨hp, -, hK⟩
          exact ⟨hp, hK⟩

lemma joinOne_ne (toD : FPath) (s : String) (h : s ≠ "") :
    joinOne toD s = toD ++ [s] := by
  simp [joinOne, h]

lemma deleteTopLevel_charac (toD : FPath) (segs : List String) :
    ∀ fs : FS, fs.wf → (∀ s ∈ segs, s ≠ "") →
      (deleteTopLevel okOracle toD segs fs).wf ∧
      (∀ p, p ∈ (deleteTopLevel okOracle toD segs fs).dirs ↔
        p ∈ fs.dirs ∧ ∀ s ∈ segs, ¬ (toD ++ [s]) <+: p) ∧
      (∀ pc, pc ∈ (deleteTopLevel okOracle toD segs fs).files ↔
        pc ∈ fs.files ∧ ∀ s ∈ segs, ¬ (toD ++ [s]) <+: pc.1) := by
  induction segs with
  | nil =>
    intro fs hwf _
    exact ⟨hwf, fun p => by simp [deleteTopLevel], fun pc => by simp [deleteTopLevel]⟩
  | cons s rest ih =>
    intro fs hwf hne
    have hner : ∀ t ∈ rest, t ≠ "" := fun t ht => hne t (List.mem_cons_of_mem s ht)
    have hj : joinOne toD s = toD ++ [s] := joinOne_ne toD s (hne s (List.mem_cons_self s rest))
    have hjn : toD ++ [s] ≠ [] := by simp
    by_cases he : fs.existsP (joinOne toD s) = true
    · have hred : deleteTopLevel okOracle toD (s :: rest) fs =
          deleteTopLevel okOracle toD rest (fs.removeTree (toD ++ [s])) := by
        have he' : fs.existsP (toD ++ [s]) = true := hj ▸ he
        rw [deleteTopLevel]
        simp [hj, he', okOracle]
      obtain ⟨ihwf, ihd, ihf⟩ :=
        ih (fs.removeTree (toD ++ [s])) (removeTree_wf fs _ hwf) hner
      rw [hred]
      refine ⟨ihwf, fun p => ?_, fun pc => ?_⟩
      · rw [ihd p, mem_removeTree_dirs, List.forall_mem_cons]
        tauto
      · rw [ihf pc, mem_removeTree_files, List.forall_mem_cons]
        tauto
    · have hred : deleteTopLevel okOracle toD (s :: rest) fs =
          deleteTopLevel okOracle toD rest fs := by
        have he' : fs.existsP (toD ++ [s]) = false := by
          rw [← hj]
          cases hb : fs.existsP (joinOne toD s) with
          | false => rfl
          | true => exact absurd hb he
        rw [deleteTopLevel]
        simp [hj, he']
      have hvac := not_exists_vacuous fs hwf (toD ++ [s]) hjn (by
        rw [← hj]
        cases hb : fs.existsP (joinOne toD s) with
        | false => rfl
        | true => exact absurd hb he)
      obtain ⟨ihwf, ihd, ihf⟩ := ih fs hwf hner
      rw [hred]
      refine ⟨ihwf, fun p => ?_, fun pc => ?_⟩
      · rw [ihd p, List.forall_mem_cons]
        constructor
        · rintro ⟨hp, hK⟩
          exact ⟨hp, hvac.1 p hp, hK⟩
        · rintro ⟨hp, -, hK⟩
          exact ⟨hp, hK⟩
      · rw [ihf pc, List.forall_mem_cons]
        constructor
        · rintro ⟨hp, hK⟩
          exact ⟨hp, hvac.2 pc hp, hK⟩
        · rintro ⟨hp, -, hK⟩
          exact ⟨hp, hK⟩

/-- The content left at `q` after extracting `entries` in order (later
entries win). -/
def lastWrite (toD : FPath) (entries : List ZipEntry) (q : FPath) : Option String :=
  match entries with
  | [] => none
  | e :: rest =>
    match lastWrite toD rest q with
    | some c => some c
    | none =>
      if e.isDirE = false ∧ destPath toD e.name = q then some e.content else none

/-- The directories an entry's extraction may create. -/
def entryDirs (toD : FPath) (e : ZipEntry) : List FPath :=
  if e.isDirE then pathPre (destPath toD e.name)
  else pathPre ((destPath toD e.name).dropLast)

/-- The directories extraction of `entries` may create. -/
def extrDirs (toD : FPath) (entries : List ZipEntry) : List FPath :=
  match entries with
  | [] => []
  | e :: rest => entryDirs toD e ++ extrDirs toD rest

lemma lastWrite_cons_dir (toD : FPath) (e : ZipEntry) (rest : List ZipEntry)
    (q : FPath) (hd : e.isDirE = true) :
    lastWrite toD (e :: rest) q = lastWrite toD rest q := by
  rw [lastWrite]
  cases lastWrite toD rest q with
  | some c => rfl
  | none => simp [hd]

lemma lastWrite_cons_file_some (toD : FPath) (e : ZipEntry) (rest : List ZipEntry)
    (q : FPath) (c : String) (h : lastWrite toD rest q = some c) :
    lastWrite toD (e :: rest) q = some c := by
  rw [lastWrite, h]

lemma lastWrite_cons_file_none (toD : FPath) (e : ZipEntry) (rest : List ZipEntry)
    (q : FPath) (hd : e.isDirE = false) (h : lastWrite toD rest q = none) :
    lastWrite toD (e :: rest) q =
      (if destPath toD e.name = q then some e.content else none) := by
  rw [lastWrite, h]
  simp [hd]

lemma pathPre_subset_dirs (fs : FS) (hwf : fs.wf) (q : FPath)
    (hq : q ∈ fs.dirs) : ∀ p ∈ pathPre q, p ∈ fs.dirs := by
  intro p hp
  rw [mem_pathPre] at hp
  obtain ⟨hne, hpre⟩ := hp
  by_cases heq : p = q
  · exact heq ▸ hq
  · have hlt : p.length < q.length := by
      rcases Nat.lt_or_ge p.length q.length with h | h
      · exact h
      · exact absurd (List.IsPrefix.eq_of_length_le hpre h) heq
    have := hwf.1 q hq p.length hlt (List.length_pos.mpr hne)
    rw [← take_preOf hpre] at this
    exact this

lemma dropLast_proper (l : FPath) (h : l ≠ []) :
    l.dropLast <+: l ∧ l.dropLast ≠ l := by
  refine ⟨List.dropLast_prefix l, fun heq => ?_⟩
  have := congrArg List.length heq
  rw [List.length_dropLast] at this
  have hpos := List.length_pos.mpr h
  omega

lemma write_step_files (toD : FPath) (e : ZipEntry) (rest : List ZipEntry)
    (fsfiles : List (FPath × FileData)) (hd : e.isDirE = false)
    (pc : FPath × FileData) :
    ((∃ c, lastWrite toD rest pc.1 = some c ∧ pc.2 = FileData.bytes c) ∨
      ((pc = (destPath toD e.name, FileData.bytes e.content) ∨
        (pc ∈ fsfiles ∧ pc.1 ≠ destPath toD e.name)) ∧
        lastWrite toD rest pc.1 = none)) ↔
    ((∃ c, lastWrite toD (e :: rest) pc.1 = some c ∧ pc.2 = FileData.bytes c) ∨
      (pc ∈ fsfiles ∧ lastWrite toD (e :: rest) pc.1 = none)) := by
  cases hlw : lastWrite toD rest pc.1 with
  | some c0 =>
    rw [lastWrite_cons_file_some toD e rest pc.1 c0 hlw]
    simp
  | none =>
    rw [lastWrite_cons_file_none toD e rest pc.1 hd hlw]
    by_cases hq : destPath toD e.name = pc.1
    · rw [if_pos hq]
      constructor
      · rintro (⟨c, hc, -⟩ | ⟨hpc, -⟩)
        · exact absurd hc (by simp)
        · rcases hpc with rfl | ⟨hmem, hne⟩
          · exact Or.inl ⟨e.content, rfl, rfl⟩
          · exact absurd hq.symm hne
      · rintro (⟨c, hc, h2⟩ | ⟨hmem, hnone⟩)
        · injection hc with hc
          subst hc
          refine Or.inr ⟨Or.inl ?_, rfl⟩
          exact Prod.ext hq.symm h2
        · exact absurd hnone (by simp)
    · rw [if_neg hq]
      constructor
      · rintro (⟨c, hc, -⟩ | ⟨hpc, -⟩)
        · exact absurd hc (by simp)
        · rcases hpc with rfl | ⟨hmem, hne⟩
          · exact absurd rfl hq
          · exact Or.inr ⟨hmem, rfl⟩
      · rintro (⟨c, hc, -⟩ | ⟨hmem, -⟩)
        · exact absurd hc (by simp)
        · exact Or.inr ⟨Or.inr ⟨hmem, fun h => hq h.symm⟩, rfl⟩

lemma extract_charac (toD : FPath) :
    ∀ (entries : List ZipEntry) (fs : FS) (acc : List FPath),
      fs.wf → toD ∈ fs.dirs →
      (∀ e ∈ entries, sanitizeName e.name ≠ []) →
      (∀ e ∈ entries, e.isDirE = false → ∀ e' ∈ entries,
        destPath toD e.name <+: destPath toD e'.name →
        destPath toD e.name = destPath toD e'.name ∧ e'.isDirE = false) →
      (∀ pc ∈ fs.files, ∀ e ∈ entries, e.isDirE = false →
        pc.1 = (destPath toD e.name).dropLast → pc.1 ∈ fs.dirs) →
      ((extractLoop okOracle toD entries fs acc).2.1).wf ∧
      toD ∈ ((extractLoop okOracle toD entries fs acc).2.1).dirs ∧
      (∀ p, p ∈ ((extractLoop okOracle toD entries fs acc).2.1).dirs ↔
        p ∈ fs.dirs ∨ p ∈ extrDirs toD entries) ∧
      (∀ pc, pc ∈ ((extractLoop okOracle toD entries fs acc).2.1).files ↔
        (∃ c, lastWrite toD entries pc.1 = some c ∧ pc.2 = FileData.bytes c) ∨
        (pc ∈ fs.files ∧ lastWrite toD entries pc.1 = none)) := by
  intro entries
  induction entries with
  | nil =>
    intro fs acc hwf hroot _ _ _
    refine ⟨hwf, hroot, fun p => by simp [extractLoop, extrDirs],
      fun pc => by simp [extractLoop, lastWrite]⟩
  | cons e rest ih =>
    intro fs acc hwf hroot hsan hconf hinv
    have hsanrest : ∀ e' ∈ rest, sanitizeName e'.name ≠ [] :=
      fun e' h => hsan e' (List.mem_cons_of_mem e h)
    have hconfrest : ∀ e' ∈ rest, e'.isDirE = false → ∀ e'' ∈ rest,
        destPath toD e'.name <+: destPath toD e''.name →
        destPath toD e'.name = destPath toD e''.name ∧ e''.isDirE = false :=
      fun e' h1 h2 e'' h3 h4 =>
        hconf e' (List.mem_cons_of_mem e h1) h2 e'' (List.mem_cons_of_mem e h3) h4
    by_cases hd : e.isDirE = true
    · have hstep : extractEntry okOracle toD e fs =
          (.ok (), fs.mkDirAll (destPath toD e.name)) := by
        simp [extractEntry, mkDirAllOp, hd, okOracle]
      have hred : extractLoop okOracle toD (e :: rest) fs acc =
          extractLoop okOracle toD rest (fs.mkDirAll (destPath toD e.name))
            (tocCollect toD (destPath toD e.name) acc) := by
        rw [extractLoop, hstep]
      rw [hred]
      have hwf' := mkDirAll_wf fs (destPath toD e.name) hwf
      have hroot' : toD ∈ (fs.mkDirAll (destPath toD e.name)).dirs :=
        (mem_mkDirAll_dirs _ _ _).mpr (Or.inr hroot)
      have hinv' : ∀ pc ∈ (fs.mkDirAll (destPath toD e.name)).files,
          ∀ e' ∈ rest, e'.isDirE = false →
          pc.1 = (destPath toD e'.name).dropLast →
          pc.1 ∈ (fs.mkDirAll (destPath toD e.name)).dirs := by
        intro pc hpc e' he' hde' hpe'
        have hh : pc.1 ∈ fs.dirs :=
          hinv pc hpc e' (List.mem_cons_of_mem e he') hde' hpe'
        exact (mem_mkDirAll_dirs _ _ _).mpr (Or.inr hh)
      obtain ⟨iwf, iroot, idirs, ifiles⟩ :=
        ih (fs.mkDirAll (destPath toD e.name)) _ hwf' hroot' hsanrest hconfrest hinv'
      refine ⟨iwf, iroot, fun p => ?_, fun pc => ?_⟩
      · rw [idirs p, mem_mkDirAll_dirs, extrDirs, List.mem_append]
        have hme : p ∈ entryDirs toD e ↔ (p ≠ [] ∧ p <+: destPath toD e.name) := by
          rw [entryDirs, if_pos hd, mem_pathPre]
        rw [hme]
        tauto
      · rw [ifiles pc, lastWrite_cons_dir toD e rest pc.1 hd]
        exact Iff.rfl
    · have hd' : e.isDirE = false := by
        cases hb : e.isDirE with
        | false => rfl
        | true => exact absurd hb hd
      have hsne : sanitizeName e.name ≠ [] := hsan e (List.mem_cons_self e rest)
      have hnil : destPath toD e.name ≠ [] := by
        unfold destPath
        intro h0
        rcases List.append_eq_nil.mp h0 with ⟨-, h2⟩
        exact hsne h2
      have hnewInv : ∀ e' ∈ rest, e'.isDirE = false →
          destPath toD e.name ≠ (destPath toD e'.name).dropLast := by
        intro e' he' hde' heq
        have hpre : destPath toD e.name <+: destPath toD e'.name := by
          rw [heq]
          exact List.dropLast_prefix _
        have hne2 : destPath toD e.name ≠ destPath toD e'.name := by
          intro h0
          have hne3 := (dropLast_proper (destPath toD e'.name)
            (by
              unfold destPath
              intro hb
              rcases List.append_eq_nil.mp hb with ⟨-, h2⟩
              exact hsanrest e' he' h2)).2
          exact hne3 (heq.symm.trans h0)
        obtain ⟨heq2, -⟩ := hconf e (List.mem_cons_self e rest) hd' e'
          (List.mem_cons_of_mem e he') hpre
        exact hne2 heq2
      by_cases hex : fs.existsP ((destPath toD e.name).dropLast) = true
      · have hpardir : (destPath toD e.name).dropLast ∈ fs.dirs := by
          rcases (existsP_iff fs _).mp hex with h | ⟨pc, hpc, hkey⟩
          · exact h
          · have hh := hinv pc hpc e (List.mem_cons_self e rest) hd' hkey
            rw [hkey] at hh
            exact hh
        have hstep : extractEntry okOracle toD e fs =
            (.ok (), fs.writeFile (destPath toD e.name) e.content) := by
          simp [extractEntry, writeFileOp, hd, hnil, hex, okOracle]
        have hred : extractLoop okOracle toD (e :: rest) fs acc =
            extractLoop okOracle toD rest (fs.writeFile (destPath toD e.name) e.content)
              (tocCollect toD (destPath toD e.name) acc) := by
          rw [extractLoop, hstep]
        rw [hred]
        have hwf' := writeFile_wf fs (destPath toD e.name) e.content hwf hnil
          (Or.inr hpardir)
        have hroot' : toD ∈ (fs.writeFile (destPath toD e.name) e.content).dirs := hroot
        have hinv' : ∀ pc ∈ (fs.writeFile (destPath toD e.name) e.content).files,
            ∀ e' ∈ rest, e'.isDirE = false →
            pc.1 = (destPath toD e'.name).dropLast →
            pc.1 ∈ (fs.writeFile (destPath toD e.name) e.content).dirs := by
          intro pc hpc e' he' hde' hpe'
          rcases (mem_writeFile_files fs _ _ pc).mp hpc with rfl | ⟨hmem, -⟩
          · exact absurd hpe' (hnewInv e' he' hde')
          · exact hinv pc hmem e' (List.mem_cons_of_mem e he') hde' hpe'
        obtain ⟨iwf, iroot, idirs, ifiles⟩ :=
          ih (fs.writeFile (destPath toD e.name) e.content) _ hwf' hroot'
            hsanrest hconfrest hinv'
        refine ⟨iwf, iroot, fun p => ?_, fun pc => ?_⟩
        · rw [idirs p, extrDirs, List.mem_append]
          have hme : p ∈ entryDirs toD e ↔
              (p ≠ [] ∧ p <+: (destPath toD e.name).dropLast) := by
            rw [entryDirs, if_neg hd, mem_pathPre]
          constructor
          · rintro (h | h)
            · exact Or.inl h
            · exact Or.inr (Or.inr h)
          · rintro (h | h | h)
            · exact Or.inl h
            · rw [hme] at h
              exact Or.inl (pathPre_subset_dirs fs hwf _ hpardir p
                ((mem_pathPre _ p).mpr h))
            · exact Or.inr h
        · rw [ifiles pc]
          have hmw := mem_writeFile_files fs (destPath toD e.name) e.content pc
          rw [hmw]
          exact write_step_files toD e rest fs.files hd' pc
      · have hstep : extractEntry okOracle toD e fs =
            (.ok (), (fs.mkDirAll ((destPath toD e.name).dropLast)).writeFile
              (destPath toD e.name) e.content) := by
          simp [extractEntry, mkDirAllOp, writeFileOp, hd, hnil, hex, okOracle]
        have hred : extractLoop okOracle toD (e :: rest) fs acc =
            extractLoop okOracle toD rest
              ((fs.mkDirAll ((destPath toD e.name).dropLast)).writeFile
                (destPath toD e.name) e.content)
              (tocCollect toD (destPath toD e.name) acc) := by
          rw [extractLoop, hstep]
        rw [hred]
        have hwfm := mkDirAll_wf fs ((destPath toD e.name).dropLast) hwf
        have hparm : (destPath toD e.name).dropLast = [] ∨
            (destPath toD e.name).dropLast ∈
              (fs.mkDirAll ((destPath toD e.name).dropLast)).dirs := by
          by_cases hpn : (destPath toD e.name).dropLast = []
          · exact Or.inl hpn
          · refine Or.inr ((mem_mkDirAll_dirs _ _ _).mpr (Or.inl ⟨hpn, ?_⟩))
            exact List.prefix_refl _
        have hwf' := writeFile_wf (fs.mkDirAll ((destPath toD e.name).dropLast))
          (destPath toD e.name) e.content hwfm hnil hparm
        have hroot' : toD ∈ ((fs.mkDirAll ((destPath toD e.name).dropLast)).writeFile
            (destPath toD e.name) e.content).dirs :=
          (mem_mkDirAll_dirs _ _ _).mpr (Or.inr hroot)
        have hinv' : ∀ pc ∈ ((fs.mkDirAll ((destPath toD e.name).dropLast)).writeFile
            (destPath toD e.name) e.content).files,
            ∀ e' ∈ rest, e'.isDirE = false →
            pc.1 = (destPath toD e'.name).dropLast →
            pc.1 ∈ ((fs.mkDirAll ((destPath toD e.name).dropLast)).writeFile
              (destPath toD e.name) e.content).dirs := by
          intro pc hpc e' he' hde' hpe'
          rcases (mem_writeFile_files _ _ _ pc).mp hpc with rfl | ⟨hmem, -⟩
          · exact absurd hpe' (hnewInv e' he' hde')
          · have hh : pc.1 ∈ fs.dirs :=
              hinv pc hmem e' (List.mem_cons_of_mem e he') hde' hpe'
            exact (mem_mkDirAll_dirs _ _ _).mpr (Or.inr hh)
        obtain ⟨iwf, iroot, idirs, ifiles⟩ :=
          ih ((fs.mkDirAll ((destPath toD e.name).dropLast)).writeFile
            (destPath toD e.name) e.content) _ hwf' hroot' hsanrest hconfrest hinv'
        refine ⟨iwf, iroot, fun p => ?_, fun pc => ?_⟩
        · rw [idirs p]
          have hds : ((fs.mkDirAll ((destPath toD e.name).dropLast)).writeFile
              (destPath toD e.name) e.content).dirs =
              (fs.mkDirAll ((destPath toD e.name).dropLast)).dirs := rfl
          rw [hds, mem_mkDirAll_dirs, extrDirs, List.mem_append]
          have hme : p ∈ entryDirs toD e ↔
              (p ≠ [] ∧ p <+: (destPath toD e.name).dropLast) := by
            rw [entryDirs, if_neg hd, mem_pathPre]
          rw [hme]
          tauto
        · rw [ifiles pc]
          have hmw := mem_writeFile_files (fs.mkDirAll ((destPath toD e.name).dropLast))
            (destPath toD e.name) e.content pc
          rw [hmw]
          exact write_step_files toD e rest fs.files hd' pc

lemma addFile_wf (fs : FS) (p : FPath) (d : FileData) (hwf : fs.wf)
    (hp : p ≠ []) (hpar : p.dropLast = [] ∨ p.dropLast ∈ fs.dirs) :
    (fs.addFile p d).wf := by
  constructor
  · exact hwf.1
  · intro pc hpc
    rcases (mem_addFile_files fs p d pc).mp hpc with rfl | ⟨hmem, -⟩
    · exact ⟨hp, hpar⟩
    · exact hwf.2 pc hmem

lemma lastWrite_not_under (toD q : FPath) (h : ¬ toD <+: q) :
    ∀ entries : List ZipEntry, lastWrite toD entries q = none
  | [] => rfl
  | e :: rest => by
    rw [lastWrite, lastWrite_not_under toD q h rest]
    rw [if_neg]
    rintro ⟨-, hq⟩
    have hpre : toD <+: destPath toD e.name := ⟨sanitizeName e.name, rfl⟩
    rw [hq] at hpre
    exact h hpre

lemma removeFileOp_ok (p : FPath) (fs : FS) (d : FileData)
    (hd : (p, d) ∈ fs.files) :
    (removeFileOp okOracle p fs).1 = .ok () ∧
    (removeFileOp okOracle p fs).2.dirs = fs.dirs ∧
    (∀ pc, pc ∈ (removeFileOp okOracle p fs).2.files ↔
      pc ∈ fs.files ∧ pc.1 ≠ p) := by
  have hany : fs.files.any (fun pc => pc.1 == p) = true := by
    rw [List.any_eq_true]
    exact ⟨(p, d), hd, by simp⟩
  have hred : removeFileOp okOracle p fs =
      (.ok (), { fs with files := fs.files.filter (fun pc => pc.1 != p), log := fs.log ++ [.rmFile p] }) := by
    simp [removeFileOp, okOracle, hany]
  rw [hred]
  refine ⟨rfl, rfl, fun pc => ?_⟩
  simp [List.mem_filter]

lemma nameOk_headSeg_ne (name : String) (h : nameOk name) : headSeg name ≠ "" := by
  simp only [nameOk] at h
  obtain ⟨hcore, hseg⟩ := h
  cases hsp : splitSeg name.data with
  | nil => exact absurd hsp (splitSeg_ne_nil name.data)
  | cons s tail =>
    rw [hsp] at hcore hseg
    have hhead : headSeg name = ⟨s⟩ := by rw [headSeg, hsp]
    have hs : s ≠ [] := by
      by_cases hlast : (s :: tail).getLast? = some ([] : List Char)
      · rw [if_pos hlast] at hcore hseg
        cases tail with
        | nil => simp at hcore
        | cons t ts =>
          have hmem : s ∈ (s :: t :: ts).dropLast := by
            rw [List.dropLast_cons₂]
            exact List.mem_cons_self _ _
          exact (hseg s hmem).1
      · rw [if_neg hlast] at hcore hseg
        exact (hseg s (List.mem_cons_self s tail)).1
    rw [hhead]
    intro he
    exact hs (congrArg String.data he)

instance (fs : FS) : Decidable fs.wf := by
  unfold FS.wf
  infer_instance

instance (name : String) : Decidable (nameOk name) := by
  unfold nameOk
  infer_instance

lemma install_charac (parse : FPath → Option AddonFolder) (addon : Addon)
    (fromD toD : FPath) (fs0 : FS) (entries : List ZipEntry)
    (hwf : fs0.wf)
    (hopen : openArchive fs0 (fromD ++ [addon.primaryFolderId]) = some entries)
    (hfne : ∀ f ∈ addon.folders, f.path ≠ [])
    (hfzip : ∀ f ∈ addon.folders, ¬ f.path <+: (fromD ++ [addon.primaryFolderId]))
    (hftoD : ∀ f ∈ addon.folders, ¬ f.path <+: toD)
    (htoD : toD ∈ fs0.dirs)
    (htz : ¬ toD <+: (fromD ++ [addon.primaryFolderId]))
    (hname : ∀ e ∈ entries, nameOk e.name)
    (hconf : ∀ e ∈ entries, e.isDirE = false → ∀ e' ∈ entries,
      destPath toD e.name <+: destPath toD e'.name →
      destPath toD e.name = destPath toD e'.name ∧ e'.isDirE = false) :
    ∃ fsF : FS,
      install_addon okOracle parse addon fromD toD fs0 =
        (.ok (dedupAdj (List.insertionSort afLeP
          ((tocsPure toD entries).filterMap parse))), fsF) ∧
      fsF.wf ∧ toD ∈ fsF.dirs ∧
      (∀ p, p ∈ fsF.dirs ↔
        (p ∈ fs0.dirs ∧ (∀ f ∈ addon.folders, ¬ f.path <+: p) ∧
          (∀ s ∈ topSegsOf entries, ¬ (toD ++ [s]) <+: p)) ∨
        p ∈ extrDirs toD entries) ∧
      (∀ pc, pc ∈ fsF.files ↔
        ((∃ c, lastWrite toD entries pc.1 = some c ∧ pc.2 = FileData.bytes c) ∨
          (pc ∈ fs0.files ∧ (∀ f ∈ addon.folders, ¬ f.path <+: pc.1) ∧
            (∀ s ∈ topSegsOf entries, ¬ (toD ++ [s]) <+: pc.1) ∧
            lastWrite toD entries pc.1 = none)) ∧
        pc.1 ≠ (fromD ++ [addon.primaryFolderId])) := by
  obtain ⟨h1wf, h1d, h1f⟩ := delete_addons_charac addon.folders fs0 hwf hfne
  have hok1 : (delete_addons okOracle addon.folders fs0).1 = .ok () :=
    delete_addons_fst_ok okOracle (fun _ => rfl) addon.folders fs0
  cases hdel : delete_addons okOracle addon.folders fs0 with
  | mk r1 fs1 =>
  rw [hdel] at hok1 h1wf h1d h1f
  simp only at hok1 h1wf h1d h1f
  subst hok1
  have hsegs : ∀ s ∈ topSegsOf entries, s ≠ "" := by
    intro s hs
    rw [topSegsOf, List.mem_dedup, List.mem_map] at hs
    obtain ⟨e, he, rfl⟩ := hs
    exact nameOk_headSeg_ne e.name (hname e he)
  obtain ⟨h2wf, h2d, h2f⟩ := deleteTopLevel_charac toD (topSegsOf entries) fs1 h1wf hsegs
  have htoD1 : toD ∈ fs1.dirs := (h1d toD).mpr ⟨htoD, hftoD⟩
  have hKtoD : ∀ s ∈ topSegsOf entries, ¬ (toD ++ [s]) <+: toD := by
    intro s _ hp
    have hl := hp.length_le
    rw [List.length_append] at hl
    simp at hl
  have htoD2 : toD ∈ (deleteTopLevel okOracle toD (topSegsOf entries) fs1).dirs :=
    (h2d toD).mpr ⟨htoD1, hKtoD⟩
  have hsan3 : ∀ e ∈ entries, sanitizeName e.name ≠ [] := by
    intro e he
    obtain ⟨c0, crest, hs, -⟩ := nameOk_sanitize e.name (hname e he)
    rw [hs]
    simp
  have hinv0 : ∀ pc ∈ (deleteTopLevel okOracle toD (topSegsOf entries) fs1).files,
      ∀ e ∈ entries, e.isDirE = false →
      pc.1 = (destPath toD e.name).dropLast →
      pc.1 ∈ (deleteTopLevel okOracle toD (topSegsOf entries) fs1).dirs := by
    intro pc hpc e he hde hpe
    obtain ⟨c0, crest, hs, hhd⟩ := nameOk_sanitize e.name (hname e he)
    cases crest with
    | nil =>
      have hdl : (destPath toD e.name).dropLast = toD := by
        rw [destPath, hs]
        simp
      rw [hpe, hdl]
      exact htoD2
    | cons c1 cs =>
      exfalso
      have hsegmem : headSeg e.name ∈ topSegsOf entries := by
        rw [topSegsOf, List.mem_dedup, List.mem_map]
        exact ⟨e, he, rfl⟩
      have hpre : (toD ++ [headSeg e.name]) <+: pc.1 := by
        rw [hpe, destPath, hs, hhd, List.map_cons, List.map_cons]
        rw [List.dropLast_append_of_ne_nil toD (by simp)]
        rw [List.dropLast_cons₂]
        refine ⟨(((⟨c1⟩ : String) :: List.map (fun s => (⟨s⟩ : String)) cs)).dropLast, ?_⟩
        simp
      obtain ⟨-, hK⟩ := (h2f pc).mp hpc
      exact hK (headSeg e.name) hsegmem hpre
  obtain ⟨h3wf, h3root, h3d, h3f⟩ :=
    extract_charac toD entries (deleteTopLevel okOracle toD (topSegsOf entries) fs1) []
      h2wf htoD2 hsan3 hconf hinv0
  have hok3 := extractLoop_fst_ok okOracle toD (fun _ => rfl) (fun _ => rfl) entries
    (deleteTopLevel okOracle toD (topSegsOf entries) fs1) []
  have htocs := extractLoop_tocs okOracle toD entries
    (deleteTopLevel okOracle toD (topSegsOf entries) fs1) [] hok3
  cases hext : extractLoop okOracle toD entries
      (deleteTopLevel okOracle toD (topSegsOf entries) fs1) [] with
  | mk r2 rest2 =>
  rw [hext] at hok3 htocs h3wf h3root h3d h3f
  simp only at hok3 htocs h3wf h3root h3d h3f
  subst hok3
  cases rest2 with
  | mk fs3 tocs =>
  simp only at htocs h3wf h3root h3d h3f
  rw [List.nil_append] at htocs
  subst htocs
  have hzmem0 : ((fromD ++ [addon.primaryFolderId], FileData.zipArchive entries) :
      FPath × FileData) ∈ fs0.files := openArchive_mem fs0 _ entries hopen
  have hzmem1 : ((fromD ++ [addon.primaryFolderId], FileData.zipArchive entries) :
      FPath × FileData) ∈ fs1.files :=
    (h1f _).mpr ⟨hzmem0, fun f hf => hfzip f hf⟩
  have hKzip : ∀ s ∈ topSegsOf entries,
      ¬ (toD ++ [s]) <+: (fromD ++ [addon.primaryFolderId]) :=
    fun s _ hp => htz (List.IsPrefix.trans ⟨[s], rfl⟩ hp)
  have hzmem2 : ((fromD ++ [addon.primaryFolderId], FileData.zipArchive entries) :
      FPath × FileData) ∈ (deleteTopLevel okOracle toD (topSegsOf entries) fs1).files :=
    (h2f _).mpr ⟨hzmem1, hKzip⟩
  have hlwz : lastWrite toD entries (fromD ++ [addon.primaryFolderId]) = none :=
    lastWrite_not_under toD _ htz entries
  have hzmem3 : ((fromD ++ [addon.primaryFolderId], FileData.zipArchive entries) :
      FPath × FileData) ∈ fs3.files :=
    (h3f _).mpr (Or.inr ⟨hzmem2, hlwz⟩)
  obtain ⟨hrmok, hrmdirs, hrmfiles⟩ :=
    removeFileOp_ok (fromD ++ [addon.primaryFolderId]) fs3
      (FileData.zipArchive entries) hzmem3
  cases hrm : removeFileOp okOracle (fromD ++ [addon.primaryFolderId]) fs3 with
  | mk r4 fs4 =>
  rw [hrm] at hrmok hrmdirs hrmfiles
  simp only at hrmok hrmdirs hrmfiles
  subst hrmok
  refine ⟨fs4, ?_, ?_, ?_, fun p => ?_, fun pc => ?_⟩
  · simp [install_addon, hopen, hdel, hext, hrm]
  · constructor
    · rw [hrmdirs]
      intro p hp n hn hpos
      exact h3wf.1 p hp n hn hpos
    · intro pc hpc
      obtain ⟨hpc3, -⟩ := (hrmfiles pc).mp hpc
      have hw3 := h3wf.2 pc hpc3
      refine ⟨hw3.1, ?_⟩
      rcases hw3.2 with h | h
      · exact Or.inl h
      · refine Or.inr ?_
        rw [hrmdirs]
        exact h
  · rw [hrmdirs]
    exact h3root
  · rw [hrmdirs, h3d p, h2d p, h1d p]
    tauto
  · rw [hrmfiles pc, h3f pc, h2f pc, h1f pc]
    constructor
    · rintro ⟨hlw | ⟨⟨⟨h0, hK1⟩, hK2⟩, hn⟩, hne⟩
      · exact ⟨Or.inl hlw, hne⟩
      · exact ⟨Or.inr ⟨h0, hK1, hK2, hn⟩, hne⟩
    · rintro ⟨hlw | ⟨h0, hK1, hK2, hn⟩, hne⟩
      · exact ⟨Or.inl hlw, hne⟩
      · exact ⟨Or.inr ⟨⟨⟨h0, hK1⟩, hK2⟩, hn⟩, hne⟩

/-- C8: installing the same archive twice in a row (with the caller
re-supplying the archive file before the second run, as `install_addon`
deletes it) is idempotent in outcome: both runs return the same sorted,
deduplicated `AddonFolder` list, and the disk after the second run holds
exactly the same directories and files as the disk after the first.
Hypotheses: a well-formed starting disk holding the archive, the
installation root present and not an ancestor of the archive path, the
addon's recorded folders pointing at neither the archive nor the root,
well-formed entry names, and no file entry whose destination is a proper
ancestor of another entry's destination. -/
theorem C8_install_idempotent (parse : FPath → Option AddonFolder) (addon : Addon)
    (fromD toD : FPath) (fs0 : FS) (entries : List ZipEntry)
    (hwf : fs0.wf)
    (hopen : openArchive fs0 (fromD ++ [addon.primaryFolderId]) = some entries)
    (hfne : ∀ f ∈ addon.folders, f.path ≠ [])
    (hfzip : ∀ f ∈ addon.folders, ¬ f.path <+: (fromD ++ [addon.primaryFolderId]))
    (hftoD : ∀ f ∈ addon.folders, ¬ f.path <+: toD)
    (htoD : toD ∈ fs0.dirs)
    (htz : ¬ toD <+: (fromD ++ [addon.primaryFolderId]))
    (hname : ∀ e ∈ entries, nameOk e.name)
    (hconf : ∀ e ∈ entries, e.isDirE = false → ∀ e' ∈ entries,
      destPath toD e.name <+: destPath toD e'.name →
      destPath toD e.name = destPath toD e'.name ∧ e'.isDirE = false) :
    ∃ (lst : List AddonFolder) (fsA fsB : FS),
      install_addon okOracle parse addon fromD toD fs0 = (.ok lst, fsA) ∧
      install_addon okOracle parse addon fromD toD
        (fsA.addFile (fromD ++ [addon.primaryFolderId])
          (FileData.zipArchive entries)) = (.ok lst, fsB) ∧
      (∀ p : FPath, p ∈ fsB.dirs ↔ p ∈ fsA.dirs) ∧
      (∀ pc : FPath × FileData, pc ∈ fsB.files ↔ pc ∈ fsA.files) := by
  obtain ⟨fsA, hinstA, hAwf, hAroot, hAdirs, hAfiles⟩ :=
    install_charac parse addon fromD toD fs0 entries hwf hopen hfne hfzip hftoD
      htoD htz hname hconf
  have hzdrop : (fromD ++ [addon.primaryFolderId]).dropLast = fromD :=
    List.dropLast_concat
  have hzmem0 := openArchive_mem fs0 (fromD ++ [addon.primaryFolderId]) entries hopen
  have hparzip := (hwf.2 _ hzmem0).2
  simp only at hparzip
  rw [hzdrop] at hparzip
  have hfromzip : fromD <+: fromD ++ [addon.primaryFolderId] :=
    ⟨[addon.primaryFolderId], rfl⟩
  have hK1from : ∀ f ∈ addon.folders, ¬ f.path <+: fromD :=
    fun f hf hp => hfzip f hf (hp.trans hfromzip)
  have hK2from : ∀ s ∈ topSegsOf entries, ¬ (toD ++ [s]) <+: fromD :=
    fun s _ hp => htz ((List.IsPrefix.trans ⟨[s], rfl⟩ hp).trans hfromzip)
  have hfromA : (fromD ++ [addon.primaryFolderId]).dropLast = [] ∨
      (fromD ++ [addon.primaryFolderId]).dropLast ∈ fsA.dirs := by
    rw [hzdrop]
    rcases hparzip with h | h
    · exact Or.inl h
    · exact Or.inr ((hAdirs fromD).mpr (Or.inl ⟨h, hK1from, hK2from⟩))
  have hwf0' : (fsA.addFile (fromD ++ [addon.primaryFolderId])
      (FileData.zipArchive entries)).wf :=
    addFile_wf fsA _ _ hAwf (by simp) hfromA
  have hopen' : openArchive (fsA.addFile (fromD ++ [addon.primaryFolderId])
      (FileData.zipArchive entries)) (fromD ++ [addon.primaryFolderId]) =
      some entries := by
    rw [openArchive, lookupFile]
    rw [show (fsA.addFile (fromD ++ [addon.primaryFolderId])
      (FileData.zipArchive entries)).files = (fromD ++ [addon.primaryFolderId],
      FileData.zipArchive entries) :: fsA.files.filter
        (fun pc => pc.1 != (fromD ++ [addon.primaryFolderId])) from rfl]
    rw [List.find?_cons_of_pos]
    · rfl
    · simp
  have htoD0' : toD ∈ (fsA.addFile (fromD ++ [addon.primaryFolderId])
      (FileData.zipArchive entries)).dirs := hAroot
  obtain ⟨fsB, hinstB, hBwf, hBroot, hBdirs, hBfiles⟩ :=
    install_charac parse addon fromD toD
      (fsA.addFile (fromD ++ [addon.primaryFolderId]) (FileData.zipArchive entries))
      entries hwf0' hopen' hfne hfzip hftoD htoD0' htz hname hconf
  refine ⟨_, fsA, fsB, hinstA, hinstB, fun p => ?_, fun pc => ?_⟩
  · have haddd : (fsA.addFile (fromD ++ [addon.primaryFolderId])
        (FileData.zipArchive entries)).dirs = fsA.dirs := rfl
    rw [hBdirs p, haddd, hAdirs p]
    tauto
  · rw [hBfiles pc, mem_addFile_files, hAfiles pc]
    by_cases hz : pc.1 = fromD ++ [addon.primaryFolderId]
    · simp [hz]
    · have hne : pc ≠ (fromD ++ [addon.primaryFolderId],
          FileData.zipArchive entries) := by
        intro he
        rw [he] at hz
        exact hz rfl
      constructor
      · rintro ⟨hlw | ⟨hpc0, hK1, hK2, hn⟩, -⟩
        · exact ⟨Or.inl hlw, hz⟩
        · rcases hpc0 with he | ⟨hA, -⟩
          · exact absurd he hne
          · exact hA
      · rintro ⟨hlw | ⟨h0, hK1, hK2, hn⟩, -⟩
        · exact ⟨Or.inl hlw, hz⟩
        · exact ⟨Or.inr ⟨Or.inr ⟨⟨Or.inr ⟨h0, hK1, hK2, hn⟩, hz⟩, hz⟩,
            hK1, hK2, hn⟩, hz⟩

/-- Archive used by the C8 witness. -/
def entriesC8 : List ZipEntry :=
  [⟨"AddonA/", ""⟩, ⟨"AddonA/AddonA.toc", "t"⟩]

/-- Disk used by the C8 witness. -/
def fsC8 : FS :=
  ⟨[[], ["wow"], ["dl"]], [(["dl", "pkg.zip"], .zipArchive entriesC8)], []⟩

/-- C8 witness: a concrete double installation with every hypothesis of
`C8_install_idempotent` discharged by evaluation. -/
theorem C8_witness :
    ∃ (lst : List AddonFolder) (fsA fsB : FS),
      install_addon okOracle (fun p => some ⟨"AddonA", p.dropLast⟩)
        ⟨"pkg.zip", [⟨"AddonA", ["wow", "AddonA"]⟩]⟩ ["dl"] ["wow"] fsC8 =
        (.ok lst, fsA) ∧
      install_addon okOracle (fun p => some ⟨"AddonA", p.dropLast⟩)
        ⟨"pkg.zip", [⟨"AddonA", ["wow", "AddonA"]⟩]⟩ ["dl"] ["wow"]
        (fsA.addFile (["dl"] ++ ["pkg.zip"]) (FileData.zipArchive entriesC8)) =
        (.ok lst, fsB) ∧
      (∀ p : FPath, p ∈ fsB.dirs ↔ p ∈ fsA.dirs) ∧
      (∀ pc : FPath × FileData, pc ∈ fsB.files ↔ pc ∈ fsA.files) :=
  C8_install_idempotent (fun p => some ⟨"AddonA", p.dropLast⟩)
    ⟨"pkg.zip", [⟨"AddonA", ["wow", "AddonA"]⟩]⟩ ["dl"] ["wow"] fsC8 entriesC8
    (by decide) (by decide) (by decide) (by decide) (by decide) (by decide)
    (by decide) (by decide) (by decide)
